import Mathlib

/-!
# github-go: comment ordering, diff-column detection, line mapping, context window

A shallow embedding of the pure core of `api.go` (`CommentList`) and of
`review-comments/main.go` (`guessDiffColumn`, `lineMap`, `showComments` with its
grouping loop and window loop), and of the standard library's `sort.Sort` that
showComments calls, followed by theorems about it.

Go strings are byte sequences: a string is a list of byte values, `len` is
`List.length`, `s[i]` is the byte at position `i`, `==` is list equality and `<`
is `strLt` below. Go `int`s that are only ever lengths and indices are `Nat`;
`Comment.Line` and the window arithmetic are `Int`. A run-time panic (index out
of range) is `Res.panic`.
-/

namespace GithubGo

/-! ## Strings -/

/-- A Go string: its bytes. -/
abbrev Str := List Nat

/-- The bytes of an ASCII literal. -/
def bytes (s : String) : Str := s.toList.map Char.toNat

/-- Go's `<` on strings: bytewise comparison, a proper prefix is smaller. -/
def strLt : Str → Str → Bool
  | [], [] => false
  | [], _ :: _ => true
  | _ :: _, [] => false
  | a :: as, b :: bs =>
    if a < b then true
    else if b < a then false
    else strLt as bs

/-! ## api.go: Comment and CommentList -/

/-- The struct `Error` of api.go. -/
structure Error where
  Message : Str
deriving DecidableEq, Repr

/-- The struct `User` of api.go. -/
structure User where
  Login : Str
deriving DecidableEq, Repr

/-- The struct `Comment` of api.go. -/
structure Comment where
  Errors : List Error
  CommitId : Str
  Path : Str
  Position : Int
  Line : Int
  Body : Str
  Created : Str
  User : User
deriving DecidableEq, Repr

/-- The type `CommentList` of api.go. -/
abbrev CommentList := List Comment

/-- The body of `CommentList.Less` on the two elements `l[i]`, `l[j]`. -/
def lessBody (a b : Comment) : Bool :=
  if a.Path = b.Path then
    if a.Line = b.Line then
      strLt a.Created b.Created
    else decide (a.Line < b.Line)
  else strLt a.Path b.Path

/-- The method `CommentList.Less`; `none` is the index-out-of-range panic. -/
def CommentList.Less (l : CommentList) (i j : Nat) : Option Bool :=
  match l[i]?, l[j]? with
  | some a, some b => some (lessBody a b)
  | _, _ => none

/-- The method `CommentList.Len`. -/
def CommentList.Len (l : CommentList) : Nat := l.length

/-- The sort key of a comment. -/
def Comment.key (c : Comment) : Str × Int × Str := (c.Path, c.Line, c.Created)

/-- Strict lexicographic order on keys as the specification words it: strings
bytewise (the standard lexicographic order on byte lists), `Line` numerically. -/
def KeyLt (a b : Comment) : Prop :=
  List.Lex (· < ·) a.Path b.Path ∨
  (a.Path = b.Path ∧ a.Line < b.Line) ∨
  (a.Path = b.Path ∧ a.Line = b.Line ∧ List.Lex (· < ·) a.Created b.Created)

/-- Three comments for the C1 instance: same path, the first two on one line. -/
def c1Comments : CommentList :=
  [ { Errors := [], CommitId := bytes "c0", Path := bytes "a.go", Position := 1, Line := 10,
      Body := bytes "first", Created := bytes "2020-01-01", User := { Login := bytes "ann" } },
    { Errors := [], CommitId := bytes "c0", Path := bytes "a.go", Position := 1, Line := 10,
      Body := bytes "second", Created := bytes "2020-01-02", User := { Login := bytes "bob" } },
    { Errors := [], CommitId := bytes "c0", Path := bytes "a.go", Position := 1, Line := 12,
      Body := bytes "third", Created := bytes "2019-12-31", User := { Login := bytes "ann" } } ]

/-! ## The sort of showComments -/

/-- What `sort.IsSorted` means for a `CommentList`: no later element is `Less`
than an earlier one (and no call to `Less` panics). -/
def IsSorted (out : CommentList) : Prop :=
  ∀ j < out.length, ∀ i < j, out.Less j i = some false

instance (out : CommentList) : Decidable (IsSorted out) := by
  unfold IsSorted; infer_instance

/-- The call `sort.Sort(comments)` of showComments (line 98), by the documented
contract of the standard library's `sort.Sort`: it rearranges the list, by calls
to `Swap`, into ascending order as determined by `Less`; the documentation adds
that the sort is not guaranteed to be stable. `SortSort l out` says that `out`
is a possible content of `comments` after the call on content `l`. The code of
the library's sort is `stdSort` below. -/
def SortSort (l out : CommentList) : Prop :=
  out.Perm l ∧ IsSorted out

instance (l out : CommentList) : Decidable (SortSort l out) := by
  unfold SortSort; infer_instance

/-- Stability of a rearrangement: for every key, the comments with that key
appear in `out` in the same relative order as in `l`. -/
def Stable (l out : CommentList) : Prop :=
  ∀ k : Str × Int × Str, out.filter (fun c => c.key = k) = l.filter (fun c => c.key = k)

/-- Two comments with the same `(Path, Line, Created)` and different bodies. -/
def c2Input : CommentList :=
  [ { Errors := [], CommitId := bytes "c0", Path := bytes "a.go", Position := 1, Line := 10,
      Body := bytes "first", Created := bytes "2020-01-01", User := { Login := bytes "ann" } },
    { Errors := [], CommitId := bytes "c0", Path := bytes "a.go", Position := 1, Line := 10,
      Body := bytes "second", Created := bytes "2020-01-01", User := { Login := bytes "bob" } } ]

/-- The comments of `c1Comments` in another order. -/
def c2Unsorted : CommentList :=
  [ { Errors := [], CommitId := bytes "c0", Path := bytes "a.go", Position := 1, Line := 12,
      Body := bytes "third", Created := bytes "2019-12-31", User := { Login := bytes "ann" } },
    { Errors := [], CommitId := bytes "c0", Path := bytes "a.go", Position := 1, Line := 10,
      Body := bytes "second", Created := bytes "2020-01-02", User := { Login := bytes "bob" } },
    { Errors := [], CommitId := bytes "c0", Path := bytes "a.go", Position := 1, Line := 10,
      Body := bytes "first", Created := bytes "2020-01-01", User := { Login := bytes "ann" } } ]

/-! ## review-comments/main.go: guessDiffColumn -/

/-- The condition of the `if` at lines 46-51 of main.go: the line is long
enough and does not show a separator at `guess`. The two byte reads are guarded
by the length test (`&&` short-circuits), so they cannot panic. Bytes: 32 is a
space, 62 is `>`, 60 is `<`, 124 is `|`. -/
def badLine (ln : Str) (guess : Nat) : Bool :=
  if ln.length > guess + 1 then
    (ln[guess]? != some 32 ||
      (ln[guess + 1]? != some 32 &&
       ln[guess + 1]? != some 62 &&
       ln[guess + 1]? != some 60 &&
       ln[guess + 1]? != some 124))
  else false

/-- The inner loop `for i, line := range diffLines` (lines 42-55) from index `i`
on, `rest` being `diffLines[i:]` and `n` being `len(diffLines)`; the result is
the final value of `good_guess`. -/
def goodGuessFrom (n guess : Nat) : Nat → List Str → Bool
  | _, [] => true
  | i, ln :: rest =>
    if i = n - 1 ∧ ln.length = 0 then
      goodGuessFrom n guess (i + 1) rest
    else if badLine ln guess then
      false
    else
      goodGuessFrom n guess (i + 1) rest

/-- The outer loop `for guess := ...; guess < len(diffLines[0]) - 1; guess++`
(lines 40-59), `len0` being `len(diffLines[0])`; `fuel` bounds the number of
iterations. -/
def guessLoop (diffLines : List Str) (len0 : Nat) : Nat → Nat → Nat
  | 0, _ => 0
  | fuel + 1, guess =>
    if guess < len0 - 1 then
      if goodGuessFrom diffLines.length guess 0 diffLines then
        guess + 1
      else
        guessLoop diffLines len0 fuel (guess + 1)
    else 0

/-- The function `guessDiffColumn`. The first guess `len(diffLines[0])/2 - 2`
is not negative, the first line being longer than 4. -/
def guessDiffColumn (diffLines : List Str) : Nat :=
  match diffLines with
  | [] => 0
  | first :: _ =>
    if first.length ≤ 4 then 0
    else guessLoop diffLines first.length first.length (first.length / 2 - 2)

/-- A line is consistent with the candidate `g`, in the specification's words:
it is shorter than `g+2`, or it has a space at `g` and one of space, `>`, `<`,
`|` at `g+1`. -/
def ConsistentLine (ln : Str) (g : Nat) : Prop :=
  ln.length < g + 2 ∨
  (ln[g]? = some 32 ∧
    (ln[g + 1]? = some 32 ∨ ln[g + 1]? = some 62 ∨
     ln[g + 1]? = some 60 ∨ ln[g + 1]? = some 124))

instance (ln : Str) (g : Nat) : Decidable (ConsistentLine ln g) := by
  unfold ConsistentLine; infer_instance

/-- A candidate is consistent when every line is consistent with it. -/
def Consistent (lines : List Str) (g : Nat) : Prop :=
  ∀ ln ∈ lines, ConsistentLine ln g

instance (lines : List Str) (g : Nat) : Decidable (Consistent lines g) := by
  unfold Consistent; infer_instance

/-- The two-line diff of the specification's example. -/
def exampleDiff : List Str := [bytes "abc | xyz", bytes "def | uvw"]

/-! ## review-comments/main.go: lineMap -/

/-- The outcome of code that can panic. `fuelOut` is an artefact of bounding a
`for` loop without a counter by fuel; `lineMap_ne_fuelOut` shows that it never
comes out of `lineMap`. -/
inductive Res (α : Type) where
  | ok : α → Res α
  | panic : Res α
  | fuelOut : Res α
deriving DecidableEq, Repr

/-- The call `strings.Split(s, "\n")` of the standard library: the pieces of `s`
between newlines (byte 10); one piece more than there are newlines. -/
def splitLines : Str → List Str
  | [] => [[]]
  | c :: cs =>
    if c = 10 then [] :: splitLines cs
    else
      match splitLines cs with
      | [] => [[c]]
      | piece :: pieces => (c :: piece) :: pieces

/-- The loop condition at line 80, `len(dl[di]) > dc && dl[di][dc] == '>'`, on
the line `dl[di]`; the byte read is guarded by the length test. -/
def additionOnly (dc : Nat) (ln : Str) : Bool :=
  decide (ln.length > dc) && (ln[dc]? == some 62)

/-- The inner loop at lines 80-82 from cursor `di`: the cursor after the loop,
or the panic of `dl[di]` when `di` has reached `len(dl)`. -/
def skipAdditions (dl : List Str) (dc : Nat) : Nat → Nat → Res Nat
  | 0, _ => Res.fuelOut
  | fuel + 1, di =>
    match dl[di]? with
    | none => Res.panic
    | some ln =>
      if additionOnly dc ln then skipAdditions dl dc fuel (di + 1)
      else Res.ok di

/-- The loop `for li, _ := range ll` at lines 79-85 over the remaining
before-lines, from cursor `di`: the entries `m[li]` it writes, in order. -/
def lineMapLoop (dl : List Str) (dc : Nat) : List Str → Nat → Res (List Nat)
  | [], _ => Res.ok []
  | _ :: ll, di =>
    match skipAdditions dl dc (dl.length + 1) di with
    | Res.ok di2 =>
      match lineMapLoop dl dc ll (di2 + 1) with
      | Res.ok m => Res.ok (di2 :: m)
      | Res.panic => Res.panic
      | Res.fuelOut => Res.fuelOut
    | Res.panic => Res.panic
    | Res.fuelOut => Res.fuelOut

/-- The function `lineMap`. -/
def lineMap (left diff : Str) : Res (List Nat) :=
  let ll := splitLines left
  let dl := splitLines diff
  let dc := guessDiffColumn dl
  lineMapLoop dl dc ll 0

/-- Proof device: the inner loop of `lineMap` on the suffix `dl[di:]`. -/
def skipSpec (dc : Nat) : List Str → Nat → Option Nat
  | [], _ => none
  | ln :: rest, di =>
    if additionOnly dc ln then skipSpec dc rest (di + 1) else some di

/-- Proof device: the outer loop of `lineMap` on the suffix `dl[di:]` with `n`
before-lines left. -/
def mapSpec (dc : Nat) : List Str → Nat → Nat → Option (List Nat)
  | _, _, 0 => some []
  | [], _, _ + 1 => none
  | ln :: rest, di, n + 1 =>
    if additionOnly dc ln then mapSpec dc rest (di + 1) (n + 1)
    else (mapSpec dc rest (di + 1) n).map (fun m => di :: m)

/-- The outcome that corresponds to an optional value, `none` being a panic. -/
def Res.ofOption {α : Type} : Option α → Res α
  | some a => Res.ok a
  | none => Res.panic

/-- A before-text of three lines. -/
def before3 : Str := bytes "x\ny\nz"

/-- A side-by-side diff of three lines, none of them an addition. -/
def diff3 : Str := bytes "xxx   xxx\nyyy   yyy\nzzz   zzz"

/-- A side-by-side diff of four lines, the second of them an addition. -/
def diff4 : Str := bytes "xxx   xxx\n    > new\nyyy   yyy\nzzz   zzz"

/-! ## review-comments/main.go: the context window of showComments -/

/-- The function `max` of main.go. -/
def max (x y : Int) : Int :=
  if x > y then x else y

/-- The function `min` of main.go. -/
def min (x y : Int) : Int :=
  if x < y then x else y

/-- Go's `l[i]` for an `int` index: `none` is the index-out-of-range panic. -/
def indexInt {α : Type} (l : List α) (i : Int) : Option α :=
  if 0 ≤ i then l[i.toNat]? else none

/-- The values that `i` takes in `for i := lo; i < hi; i++`, the bounds not
changing in the loop: `lo, lo+1, ..., hi-1`, none when `hi ≤ lo`. -/
def loopIndices (lo hi : Int) : List Int :=
  (List.range (hi - lo).toNat).map (fun (k : Nat) => lo + (k : Int))

/-- The body `fmt.Println(dl[i])` of the loop at lines 119-126, run for the
given values of `i` in order: the lines printed, or the panic of `dl[i]`. -/
def printLines (dl : List Str) : List Int → Res (List Str)
  | [] => Res.ok []
  | i :: rest =>
    match indexInt dl i with
    | none => Res.panic
    | some ln =>
      match printLines dl rest with
      | Res.ok out => Res.ok (ln :: out)
      | Res.panic => Res.panic
      | Res.fuelOut => Res.fuelOut

/-- Lines 115-126 of showComments for one line-anchored group: `before` is the
content of the before file, `d` the output of the diff renderer, `line` the
anchor of the group; the result is the context block printed after the
`path:line` header. -/
def contextBlock (before d : Str) (line : Int) : Res (List Str) :=
  let dl := splitLines d
  let bl := splitLines before
  match lineMap before d with
  | Res.ok m =>
    match indexInt m line with
    | none => Res.panic
    | some ml =>
      printLines dl (loopIndices (max 0 ((ml : Int) - 3)) (min ((ml : Int) + 4) (bl.length : Int)))
  | Res.panic => Res.panic
  | Res.fuelOut => Res.fuelOut

/-- The context block in the specification's words: the diff-output lines with
indices `max(0, m-3) ≤ i < min(m+4, len(diffLines))`, in order. -/
def specWindow (dl : List Str) (m : Nat) : List Str :=
  (dl.take (Nat.min (m + 4) dl.length)).drop (m - 3)

/-- A before-text of two lines. -/
def before2 : Str := bytes "x\ny"

/-- A side-by-side diff of five lines: three additions, then the two lines of
`before2`. -/
def diff5 : Str := bytes "    > n1\n    > n2\n    > n3\nxxx   xxx\nyyy   yyy"

/-! ## api.go: PullRequest -/

/-- The struct `Repo` of api.go. -/
structure Repo where
  Name : Str
deriving DecidableEq, Repr

/-- The struct `Commit` of api.go. -/
structure Commit where
  SHA : Str
  Repo : Repo
deriving DecidableEq, Repr

/-- The struct `PullRequest` of api.go. -/
structure PullRequest where
  Errors : List Error
  Head : Commit
  Base : Commit
  Number : Int
  IssueUrl : Str
deriving DecidableEq, Repr

/-! ## review-comments/main.go: showComments -/

/-- The external commands behind `fetch` and `diff`. `gitShow path sha` is the
output of `git show sha:path`, `none` when the command fails, in which case
`fetch` panics; `colordiff before after` is the output of the diff renderer on
the two files that `fetch` has written. -/
structure Collaborators where
  gitShow : Str → Str → Option Str
  colordiff : Str → Str → Str

/-- What showComments writes to standard output, one event per print
statement: the separator of line 102, a comment's login and body (line 105),
the `path:line` header (line 118), a line of the context block (line 125). -/
inductive Event where
  | separator : Event
  | comment : Str → Str → Event
  | header : Str → Int → Event
  | context : Str → Event
deriving DecidableEq, Repr

/-- How a run ends: it completes, it panics, or the fuel of a loop model runs
out (which `showSorted_ne_fuelOut` excludes). -/
inductive Status where
  | done : Status
  | panic : Status
  | fuelOut : Status
deriving DecidableEq, Repr

/-- The event of line 105 for one comment. -/
def commentEvent (c : Comment) : Event :=
  Event.comment c.User.Login c.Body

/-- The inner loop at lines 104-107 on `rest = comments[ci:]`: the events it
prints and the comments left, `comments[ci:]` for the final `ci`. -/
def scanGroup (path : Str) (line : Int) : List Comment → List Event × List Comment
  | [] => ([], [])
  | c :: rest =>
    if c.Path = path ∧ c.Line = line then
      (commentEvent c :: (scanGroup path line rest).1, (scanGroup path line rest).2)
    else ([], c :: rest)

/-- The loop at lines 119-126 with its output: the events printed for the given
values of `i` in order, up to the panic of `dl[i]` if there is one. -/
def printTrace (dl : List Str) : List Int → List Event × Status
  | [] => ([], Status.done)
  | i :: rest =>
    match indexInt dl i with
    | none => ([], Status.panic)
    | some ln => (Event.context ln :: (printTrace dl rest).1, (printTrace dl rest).2)

/-- Lines 108-127 of showComments for the group `(path, line, sha)`: nothing for
`line == 0`; otherwise the two `fetch` calls, `diff`, `lineMap`, the header and
the context loop, with what is printed up to a panic if there is one. -/
def renderGroup (w : Collaborators) (head_sha path : Str) (line : Int) (sha : Str) :
    List Event × Status :=
  if line = 0 then ([], Status.done)
  else
    match w.gitShow path sha with
    | none => ([], Status.panic)
    | some before =>
      match w.gitShow path head_sha with
      | none => ([], Status.panic)
      | some after =>
        match lineMap before (w.colordiff before after) with
        | Res.panic => ([], Status.panic)
        | Res.fuelOut => ([], Status.fuelOut)
        | Res.ok m =>
          match indexInt m line with
          | none => ([Event.header path line], Status.panic)
          | some ml =>
            (Event.header path line ::
              (printTrace (splitLines (w.colordiff before after))
                (loopIndices (max 0 ((ml : Int) - 3))
                  (min ((ml : Int) + 4) ((splitLines before).length : Int)))).1,
             (printTrace (splitLines (w.colordiff before after))
                (loopIndices (max 0 ((ml : Int) - 3))
                  (min ((ml : Int) + 4) ((splitLines before).length : Int)))).2)

/-- The loop `for ci < len(comments)` at lines 101-127 on `comments[ci:]`; every
iteration consumes at least one comment, and `fuel` bounds the iterations. -/
def showLoop (w : Collaborators) (head_sha : Str) : Nat → List Comment → List Event × Status
  | _, [] => ([], Status.done)
  | 0, _ :: _ => ([], Status.fuelOut)
  | fuel + 1, c :: rest =>
    match renderGroup w head_sha c.Path c.Line c.CommitId with
    | (block, Status.done) =>
      (Event.separator :: (scanGroup c.Path c.Line (c :: rest)).1 ++ block ++
          (showLoop w head_sha fuel (scanGroup c.Path c.Line (c :: rest)).2).1,
        (showLoop w head_sha fuel (scanGroup c.Path c.Line (c :: rest)).2).2)
    | (block, st) =>
      (Event.separator :: (scanGroup c.Path c.Line (c :: rest)).1 ++ block, st)

/-- The function `showComments` after its first statement: `sorted` is the
content of `comments` when `sort.Sort(comments)` has returned. -/
def showSorted (w : Collaborators) (pull : PullRequest) (sorted : CommentList) :
    List Event × Status :=
  showLoop w pull.Head.SHA sorted.length sorted

/-- The function `showComments`, as a relation because of `sort.Sort`: `r` is a
possible output and ending of the call. -/
def showComments (w : Collaborators) (pull : PullRequest) (comments : CommentList)
    (r : List Event × Status) : Prop :=
  ∃ sorted, SortSort comments sorted ∧ r = showSorted w pull sorted

/-- The `(Path, Line)` pair of the first comment of a group. -/
def groupKey : List Comment → Str × Int
  | [] => ([], 0)
  | c :: _ => (c.Path, c.Line)

/-- What a group prints after its comments when it is rendered to the end: for
an anchor other than 0, the header and the context block that `contextBlock`
gives for the before file at the CommitId of the group's first comment; nothing
for anchor 0. -/
def groupBlock (w : Collaborators) (head_sha : Str) : List Comment → List Event
  | [] => []
  | c :: _ =>
    if c.Line = 0 then []
    else
      match w.gitShow c.Path c.CommitId, w.gitShow c.Path head_sha with
      | some before, some after =>
        match contextBlock before (w.colordiff before after) c.Line with
        | Res.ok block => Event.header c.Path c.Line :: block.map Event.context
        | _ => []
      | _, _ => []

/-- The login and body of a comment event. -/
def Event.commentOf : Event → Option (Str × Str)
  | Event.comment login body => some (login, body)
  | _ => none

/-- The path and line of a header event. -/
def Event.headerOf : Event → Option (Str × Int)
  | Event.header path line => some (path, line)
  | _ => none

/-- A pull request whose head is the commit "h1". -/
def pull1 : PullRequest :=
  { Errors := [], Head := { SHA := bytes "h1", Repo := { Name := bytes "r" } },
    Base := { SHA := bytes "b0", Repo := { Name := bytes "r" } }, Number := 1,
    IssueUrl := bytes "u" }

/-- Collaborators that know the file "a.go" only: three lines at every commit,
rendered by the diff tool as `diff4`. -/
def world1 : Collaborators :=
  { gitShow := fun path _ => if path = bytes "a.go" then some before3 else none,
    colordiff := fun _ _ => diff4 }

/-- Two comments in sorted order: one on "b.go", which `git show` does not
find, then one without an anchor on "c.go". -/
def c11Aborting : CommentList :=
  [ { Errors := [], CommitId := bytes "c0", Path := bytes "b.go", Position := 1, Line := 1,
      Body := bytes "first", Created := bytes "2020-01-01", User := { Login := bytes "ann" } },
    { Errors := [], CommitId := bytes "c0", Path := bytes "c.go", Position := 0, Line := 0,
      Body := bytes "second", Created := bytes "2020-01-02", User := { Login := bytes "bob" } } ]

/-- Three comments in sorted order: one without an anchor, then two on line 1
of "a.go". -/
def c11Comments : CommentList :=
  [ { Errors := [], CommitId := bytes "c0", Path := [], Position := 0, Line := 0,
      Body := bytes "general", Created := bytes "2020-01-03", User := { Login := bytes "cy" } },
    { Errors := [], CommitId := bytes "c0", Path := bytes "a.go", Position := 1, Line := 1,
      Body := bytes "first", Created := bytes "2020-01-01", User := { Login := bytes "ann" } },
    { Errors := [], CommitId := bytes "c1", Path := bytes "a.go", Position := 1, Line := 1,
      Body := bytes "second", Created := bytes "2020-01-02", User := { Login := bytes "bob" } } ]

/-- A before-text of two lines without a newline at its end. -/
def beforeNoNewline : Str := bytes "xxx\nyyy"

/-- The same two lines with a newline at the end. -/
def beforeNewline : Str := bytes "xxx\nyyy\n"

/-- The side-by-side diff of the two lines against themselves, as the renderer
prints it, each line ended by a newline. -/
def diffSame : Str := bytes "xxx   xxx\nyyy   yyy\n"

/-! ## The standard library's sort.Sort on a CommentList

`sort.Sort` is not code of the repository; showComments calls it on the
`CommentList`, whose methods `Len`, `Less` and `Swap` are in api.go. What
follows is the sort of the Go standard library (pattern-defeating quicksort,
`sort/zsortinterface.go` and `sort/sort.go`, in the library since Go 1.19),
function by function, with `data` passed as state. Indices and lengths are
`Nat`: the code never forms a negative index, and `b - a` is only taken with
`a ≤ b`. -/

/-- Sequencing of outcomes: a panic or an exhausted fuel ends the computation. -/
def Res.bind {α β : Type} : Res α → (α → Res β) → Res β
  | Res.ok a, f => f a
  | Res.panic, _ => Res.panic
  | Res.fuelOut, _ => Res.fuelOut

instance : Monad Res where
  pure := Res.ok
  bind := Res.bind

/-- The method `CommentList.Swap` of api.go; `none` is the index-out-of-range
panic. -/
def CommentList.Swap (l : CommentList) (i j : Nat) : Option CommentList :=
  match l[i]?, l[j]? with
  | some t, some u => some ((l.set i u).set j t)
  | _, _ => none

/-- The call `data.Less(i, j)` inside the sort. -/
def dataLess (data : CommentList) (i j : Nat) : Res Bool :=
  Res.ofOption (data.Less i j)

/-- The call `data.Swap(i, j)` inside the sort. -/
def dataSwap (data : CommentList) (i j : Nat) : Res CommentList :=
  Res.ofOption (data.Swap i j)

/-- The inner loop of `insertionSort`,
`for j := i; j > a && data.Less(j, j-1); j-- { data.Swap(j, j-1) }`, from `j`. -/
def insertionInner (a : Nat) : Nat → CommentList → Res CommentList
  | 0, data => pure data
  | j + 1, data =>
    if j + 1 > a then do
      let lt ← dataLess data (j + 1) j
      if lt then do
        let data ← dataSwap data (j + 1) j
        insertionInner a j data
      else pure data
    else pure data

/-- The outer loop of `insertionSort`, `for i := a + 1; i < b; i++`, from `i`. -/
def insertionOuter (a b : Nat) : Nat → Nat → CommentList → Res CommentList
  | 0, i, data => if i < b then Res.fuelOut else pure data
  | fuel + 1, i, data =>
    if i < b then do
      let data ← insertionInner a i data
      insertionOuter a b fuel (i + 1) data
    else pure data

/-- The function `insertionSort(data, a, b)`. -/
def insertionSort (data : CommentList) (a b : Nat) : Res CommentList :=
  insertionOuter a b (b - a) (a + 1) data

/-- The function `siftDown(data, lo, hi, first)`, its loop from `root`. -/
def siftDown (hi first : Nat) : Nat → Nat → CommentList → Res CommentList
  | 0, _, _ => Res.fuelOut
  | fuel + 1, root, data =>
    if 2 * root + 1 ≥ hi then pure data
    else do
      let lt ← if 2 * root + 1 + 1 < hi then
          dataLess data (first + (2 * root + 1)) (first + (2 * root + 1) + 1)
        else pure false
      let child := if lt then 2 * root + 1 + 1 else 2 * root + 1
      let lt2 ← dataLess data (first + root) (first + child)
      if !lt2 then pure data
      else do
        let data ← dataSwap data (first + root) (first + child)
        siftDown hi first fuel child data

/-- The first loop of `heapSort`, `for i := (hi - 1) / 2; i >= 0; i--`, from `i`
down to 0. -/
def heapBuild (hi first : Nat) : Nat → CommentList → Res CommentList
  | 0, data => siftDown hi first (hi + 1) 0 data
  | i + 1, data => do
    let data ← siftDown hi first (hi + 1) (i + 1) data
    heapBuild hi first i data

/-- The second loop of `heapSort`, `for i := hi - 1; i >= 0; i--`, with `n`
iterations left, the next one at `i = n - 1`. -/
def heapPop (first : Nat) : Nat → CommentList → Res CommentList
  | 0, data => pure data
  | n + 1, data => do
    let data ← dataSwap data first (first + n)
    let data ← siftDown n first (n + 1) 0 data
    heapPop first n data

/-- The function `heapSort(data, a, b)`. -/
def heapSort (data : CommentList) (a b : Nat) : Res CommentList := do
  let data ← heapBuild (b - a) a ((b - a - 1) / 2) data
  heapPop a (b - a) data

/-- The type `sortedHint`. -/
inductive sortedHint where
  | unknownHint : sortedHint
  | increasingHint : sortedHint
  | decreasingHint : sortedHint
deriving DecidableEq, Repr

/-- The method `Next` of `xorshift`, on 64-bit words: the new state, which is
also the value returned. -/
def xorshiftNext (r : Nat) : Nat :=
  let r1 := r ^^^ ((r <<< 13) % 2 ^ 64)
  let r2 := r1 ^^^ (r1 >>> 7)
  r2 ^^^ ((r2 <<< 17) % 2 ^ 64)

/-- The call `bits.Len(x)`: the number of bits needed to write `x`. -/
def bitsLen (x : Nat) : Nat :=
  if x = 0 then 0 else Nat.log2 x + 1

/-- The function `nextPowerOfTwo(length)`. -/
def nextPowerOfTwo (length : Nat) : Nat :=
  1 <<< bitsLen length

/-- The loop `for i := 0; i < 3; i++` of `breakPatterns`, with `n` iterations
left; `uint` is taken to be 64 bits wide. -/
def breakLoop (a length modulus idx : Nat) : Nat → Nat → Nat → CommentList → Res CommentList
  | 0, _, _, data => pure data
  | n + 1, i, random, data => do
    let other := xorshiftNext random &&& (modulus - 1)
    let other := if other ≥ length then other - length else other
    let data ← dataSwap data (idx - 1 + i) (a + other)
    breakLoop a length modulus idx n (i + 1) (xorshiftNext random) data

/-- The function `breakPatterns(data, a, b)`. -/
def breakPatterns (data : CommentList) (a b : Nat) : Res CommentList :=
  if b - a ≥ 8 then
    breakLoop a (b - a) (nextPowerOfTwo (b - a)) (a + ((b - a) / 4) * 2 - 1) 3 0 (b - a) data
  else pure data

/-- The function `order2(data, a, b, swaps)`: the two indices in order and the
new value of `*swaps`. -/
def order2 (data : CommentList) (a b swaps : Nat) : Res (Nat × Nat × Nat) := do
  let lt ← dataLess data b a
  if lt then pure (b, a, swaps + 1) else pure (a, b, swaps)

/-- The function `median(data, a, b, c, swaps)`: the index of the median and the
new value of `*swaps`. -/
def median (data : CommentList) (a b c swaps : Nat) : Res (Nat × Nat) := do
  let (a, b, swaps) ← order2 data a b swaps
  let (b, _, swaps) ← order2 data b c swaps
  let (_, b, swaps) ← order2 data a b swaps
  pure (b, swaps)

/-- The function `medianAdjacent(data, a, swaps)`. -/
def medianAdjacent (data : CommentList) (a swaps : Nat) : Res (Nat × Nat) :=
  median data (a - 1) a (a + 1) swaps

/-- The function `choosePivot(data, a, b)`; `shortestNinther` is 50 and
`maxSwaps` is 12. -/
def choosePivot (data : CommentList) (a b : Nat) : Res (Nat × sortedHint) := do
  let l := b - a
  let i := a + l / 4 * 1
  let j := a + l / 4 * 2
  let k := a + l / 4 * 3
  let (j, swaps) ←
    if l ≥ 8 then do
      let (i, j, k, swaps) ←
        if l ≥ 50 then do
          let (i, swaps) ← medianAdjacent data i 0
          let (j, swaps) ← medianAdjacent data j swaps
          let (k, swaps) ← medianAdjacent data k swaps
          pure (i, j, k, swaps)
        else pure (i, j, k, 0)
      median data i j k swaps
    else pure (j, 0)
  if swaps = 0 then pure (j, sortedHint.increasingHint)
  else if swaps = 12 then pure (j, sortedHint.decreasingHint)
  else pure (j, sortedHint.unknownHint)

/-- The loop `for i < j` of `reverseRange`. -/
def reverseLoop : Nat → Nat → Nat → CommentList → Res CommentList
  | 0, i, j, data => if i < j then Res.fuelOut else pure data
  | fuel + 1, i, j, data =>
    if i < j then do
      let data ← dataSwap data i j
      reverseLoop fuel (i + 1) (j - 1) data
    else pure data

/-- The function `reverseRange(data, a, b)`. -/
def reverseRange (data : CommentList) (a b : Nat) : Res CommentList :=
  reverseLoop (b - a) a (b - 1) data

/-- The loop `for i <= j && data.Less(i, a) { i++ }` of `partition`: the final
`i`. -/
def scanUpLess (data : CommentList) (a j : Nat) : Nat → Nat → Res Nat
  | 0, i => if i ≤ j then Res.fuelOut else pure i
  | fuel + 1, i =>
    if i ≤ j then do
      let lt ← dataLess data i a
      if lt then scanUpLess data a j fuel (i + 1) else pure i
    else pure i

/-- The loop `for i <= j && !data.Less(j, a) { j-- }` of `partition`: the final
`j`. -/
def scanDownNotLess (data : CommentList) (a i : Nat) : Nat → Nat → Res Nat
  | 0, j => if i ≤ j then Res.fuelOut else pure j
  | fuel + 1, j =>
    if i ≤ j then do
      let lt ← dataLess data j a
      if !lt then scanDownNotLess data a i fuel (j - 1) else pure j
    else pure j

/-- The second loop of `partition`, `for { ... }`: the data and the final `j`. -/
def partitionLoop (a : Nat) : Nat → Nat → Nat → CommentList → Res (CommentList × Nat)
  | 0, _, _, _ => Res.fuelOut
  | fuel + 1, i, j, data => do
    let i ← scanUpLess data a j (j + 1) i
    let j ← scanDownNotLess data a i (j + 1) j
    if i > j then pure (data, j)
    else do
      let data ← dataSwap data i j
      partitionLoop a fuel (i + 1) (j - 1) data

/-- The function `partition(data, a, b, pivot)`: the data, `newpivot` and
`alreadyPartitioned`. -/
def partition (data : CommentList) (a b pivot : Nat) : Res (CommentList × Nat × Bool) := do
  let data ← dataSwap data a pivot
  let i ← scanUpLess data a (b - 1) b (a + 1)
  let j ← scanDownNotLess data a i b (b - 1)
  if i > j then do
    let data ← dataSwap data j a
    pure (data, j, true)
  else do
    let data ← dataSwap data i j
    let (data, j) ← partitionLoop a b (i + 1) (j - 1) data
    let data ← dataSwap data j a
    pure (data, j, false)

/-- The loop `for i <= j && !data.Less(a, i) { i++ }` of `partitionEqual`. -/
def scanUpNotGreater (data : CommentList) (a j : Nat) : Nat → Nat → Res Nat
  | 0, i => if i ≤ j then Res.fuelOut else pure i
  | fuel + 1, i =>
    if i ≤ j then do
      let lt ← dataLess data a i
      if !lt then scanUpNotGreater data a j fuel (i + 1) else pure i
    else pure i

/-- The loop `for i <= j && data.Less(a, j) { j-- }` of `partitionEqual`. -/
def scanDownGreater (data : CommentList) (a i : Nat) : Nat → Nat → Res Nat
  | 0, j => if i ≤ j then Res.fuelOut else pure j
  | fuel + 1, j =>
    if i ≤ j then do
      let lt ← dataLess data a j
      if lt then scanDownGreater data a i fuel (j - 1) else pure j
    else pure j

/-- The loop `for { ... }` of `partitionEqual`: the data and the final `i`. -/
def partitionEqualLoop (a : Nat) : Nat → Nat → Nat → CommentList → Res (CommentList × Nat)
  | 0, _, _, _ => Res.fuelOut
  | fuel + 1, i, j, data => do
    let i ← scanUpNotGreater data a j (j + 1) i
    let j ← scanDownGreater data a i (j + 1) j
    if i > j then pure (data, i)
    else do
      let data ← dataSwap data i j
      partitionEqualLoop a fuel (i + 1) (j - 1) data

/-- The function `partitionEqual(data, a, b, pivot)`: the data and `newpivot`. -/
def partitionEqual (data : CommentList) (a b pivot : Nat) : Res (CommentList × Nat) := do
  let data ← dataSwap data a pivot
  partitionEqualLoop a b (a + 1) (b - 1) data

/-- The loop `for i < b && !data.Less(i, i-1) { i++ }` of
`partialInsertionSort`: the final `i`. -/
def scanSorted (data : CommentList) (b : Nat) : Nat → Nat → Res Nat
  | 0, i => if i < b then Res.fuelOut else pure i
  | fuel + 1, i =>
    if i < b then do
      let lt ← dataLess data i (i - 1)
      if !lt then scanSorted data b fuel (i + 1) else pure i
    else pure i

/-- The loop `for j := i - 1; j >= 1; j--` of `partialInsertionSort`, from `j`. -/
def shiftLeft : Nat → CommentList → Res CommentList
  | 0, data => pure data
  | j + 1, data => do
    let lt ← dataLess data (j + 1) j
    if !lt then pure data
    else do
      let data ← dataSwap data (j + 1) j
      shiftLeft j data

/-- The loop `for j := i + 1; j < b; j++` of `partialInsertionSort`, from `j`. -/
def shiftRight (b : Nat) : Nat → Nat → CommentList → Res CommentList
  | 0, j, data => if j < b then Res.fuelOut else pure data
  | fuel + 1, j, data =>
    if j < b then do
      let lt ← dataLess data j (j - 1)
      if !lt then pure data
      else do
        let data ← dataSwap data j (j - 1)
        shiftRight b fuel (j + 1) data
    else pure data

/-- The loop `for j := 0; j < maxSteps; j++` of `partialInsertionSort`, with `n`
iterations left: the data and the result of the function. `shortestShifting`
is 50. -/
def partialLoop (a b : Nat) : Nat → Nat → CommentList → Res (CommentList × Bool)
  | 0, _, data => pure (data, false)
  | n + 1, i, data => do
    let i ← scanSorted data b (b + 1) i
    if i = b then pure (data, true)
    else if b - a < 50 then pure (data, false)
    else do
      let data ← dataSwap data i (i - 1)
      let data ← if i - a ≥ 2 then shiftLeft (i - 1) data else pure data
      let data ← if b - i ≥ 2 then shiftRight b (b + 1) (i + 1) data else pure data
      partialLoop a b n i data

/-- The function `partialInsertionSort(data, a, b)`; `maxSteps` is 5. -/
def partialInsertionSort (data : CommentList) (a b : Nat) : Res (CommentList × Bool) :=
  partialLoop a b 5 (a + 1) data

/-- The function `pdqsort(data, a, b, limit)`: its loop `for { ... }` with the
current `a`, `b`, `limit`, `wasBalanced` and `wasPartitioned`; `maxInsertion`
is 12. `fuel` bounds the iterations of the loop together with the depth of the
recursion; `stdSort_short` and `C2_sort_thirteen_not_stable` show that it is
not used up on the inputs they are about. -/
def pdqsortLoop : Nat → CommentList → Nat → Nat → Nat → Bool → Bool → Res CommentList
  | 0, _, _, _, _, _, _ => Res.fuelOut
  | fuel + 1, data, a, b, limit, wasBalanced, wasPartitioned =>
    if b - a ≤ 12 then insertionSort data a b
    else if limit = 0 then heapSort data a b
    else do
      let data ← if !wasBalanced then breakPatterns data a b else pure data
      let limit := if !wasBalanced then limit - 1 else limit
      let (pivot, hint) ← choosePivot data a b
      let data ← if hint = sortedHint.decreasingHint then reverseRange data a b else pure data
      let pivot := if hint = sortedHint.decreasingHint then (b - 1) - (pivot - a) else pivot
      let hint := if hint = sortedHint.decreasingHint then sortedHint.increasingHint else hint
      let (data, sorted) ←
        if wasBalanced && wasPartitioned && hint = sortedHint.increasingHint then
          partialInsertionSort data a b
        else pure (data, false)
      if sorted then pure data
      else do
        let eq ← if a > 0 then do
            let lt ← dataLess data (a - 1) pivot
            pure (!lt)
          else pure false
        if eq then do
          let (data, mid) ← partitionEqual data a b pivot
          pdqsortLoop fuel data mid b limit wasBalanced wasPartitioned
        else do
          let (data, mid, alreadyPartitioned) ← partition data a b pivot
          if mid - a < b - mid then do
            let data ← pdqsortLoop fuel data a mid limit true true
            pdqsortLoop fuel data (mid + 1) b limit
              (decide (mid - a ≥ (b - a) / 8)) alreadyPartitioned
          else do
            let data ← pdqsortLoop fuel data (mid + 1) b limit true true
            pdqsortLoop fuel data a mid limit
              (decide (b - mid ≥ (b - a) / 8)) alreadyPartitioned

/-- The function `sort.Sort(data)`; the name `Sort` is reserved in Lean. -/
def stdSort (data : CommentList) : Res CommentList :=
  if data.Len ≤ 1 then pure data
  else pdqsortLoop (data.Len + 1) data 0 data.Len (bitsLen data.Len) true true

/-- A comment on line 10 of "a.go" with the given creation time and body. -/
def c2Comment (created body : String) : Comment :=
  { Errors := [], CommitId := bytes "c0", Path := bytes "a.go", Position := 1, Line := 10,
    Body := bytes body, Created := bytes created, User := { Login := bytes "ann" } }

/-- Thirteen comments on one line: twelve created at the same time, with bodies
"b00" to "b11", then one created earlier, with body "b12". -/
def c2Thirteen : CommentList :=
  [ c2Comment "2020-01-02" "b00", c2Comment "2020-01-02" "b01", c2Comment "2020-01-02" "b02",
    c2Comment "2020-01-02" "b03", c2Comment "2020-01-02" "b04", c2Comment "2020-01-02" "b05",
    c2Comment "2020-01-02" "b06", c2Comment "2020-01-02" "b07", c2Comment "2020-01-02" "b08",
    c2Comment "2020-01-02" "b09", c2Comment "2020-01-02" "b10", c2Comment "2020-01-02" "b11",
    c2Comment "2020-01-01" "b12" ]

/-- The list `c2Thirteen` as `sort.Sort` leaves it. -/
def c2ThirteenSorted : CommentList :=
  [ c2Comment "2020-01-01" "b12", c2Comment "2020-01-02" "b06", c2Comment "2020-01-02" "b02",
    c2Comment "2020-01-02" "b03", c2Comment "2020-01-02" "b04", c2Comment "2020-01-02" "b05",
    c2Comment "2020-01-02" "b00", c2Comment "2020-01-02" "b07", c2Comment "2020-01-02" "b08",
    c2Comment "2020-01-02" "b09", c2Comment "2020-01-02" "b10", c2Comment "2020-01-02" "b11",
    c2Comment "2020-01-02" "b01" ]

/-- Proof device: `x` moved leftwards into the reversed prefix `p :: ps`, past
every element it is `Less` than, as the inner loop of `insertionSort` does. -/
def bubble (x : Comment) : List Comment → List Comment
  | [] => [x]
  | p :: ps => if lessBody x p then p :: bubble x ps else x :: p :: ps

/-- Proof device: the reversed prefix after `insertionSort` has taken in the
comments of `rest`, one after the other. -/
def bubbleAll (prefixRev rest : List Comment) : List Comment :=
  rest.foldl (fun acc x => bubble x acc) prefixRev

/-! # Theorems -/

/-! ## Lemmas on the string order -/

theorem strLt_iff_lex : ∀ s t : Str, strLt s t = true ↔ List.Lex (· < ·) s t
  | [], [] => by simp [strLt]
  | [], _ :: _ => by simp [strLt, List.Lex.nil]
  | _ :: _, [] => by simp [strLt]
  | a :: as, b :: bs => by
    have ih := strLt_iff_lex as bs
    unfold strLt
    by_cases h1 : a < b
    · simp only [h1, if_true, true_iff]
      exact List.Lex.rel h1
    · by_cases h2 : b < a
      · simp only [h1, h2, if_false, if_true]
        constructor
        · intro h; cases h
        · intro h
          cases h with
          | cons h => omega
          | rel h => omega
      · have hab : a = b := by omega
        subst hab
        simp only [h1, if_false, ih]
        constructor
        · intro h; exact List.Lex.cons h
        · intro h
          cases h with
          | cons h => exact h
          | rel h => omega

theorem strLt_irrefl : ∀ s : Str, strLt s s = false
  | [] => rfl
  | a :: as => by simp [strLt, strLt_irrefl as]

theorem strLt_trans : ∀ s t u : Str, strLt s t = true → strLt t u = true → strLt s u = true
  | [], [], _ => by simp [strLt]
  | [], _ :: _, [] => by simp [strLt]
  | [], _ :: _, _ :: _ => by simp [strLt]
  | _ :: _, [], _ => by simp [strLt]
  | _ :: _, _ :: _, [] => by simp [strLt]
  | a :: as, b :: bs, c :: cs => by
    have ih := strLt_trans as bs cs
    unfold strLt
    intro h1 h2
    by_cases hab : a < b
    · by_cases hbc : b < c
      · have : a < c := by omega
        simp [this]
      · by_cases hcb : c < b
        · simp [hbc, hcb] at h2
        · have : a < c := by omega
          simp [this]
    · by_cases hba : b < a
      · simp [hab, hba] at h1
      · have e1 : a = b := by omega
        subst e1
        simp only [hab, if_false] at h1
        by_cases hbc : a < c
        · simp [hbc]
        · by_cases hcb : c < a
          · simp [hbc, hcb] at h2
          · simp only [hbc, hcb, if_false] at h2 ⊢
            exact ih h1 h2

theorem strLt_total : ∀ s t : Str, s ≠ t → strLt s t = true ∨ strLt t s = true
  | [], [] => by simp
  | [], _ :: _ => by simp [strLt]
  | _ :: _, [] => by simp [strLt]
  | a :: as, b :: bs => by
    have ih := strLt_total as bs
    intro hne
    unfold strLt
    by_cases hab : a < b
    · simp [hab]
    · by_cases hba : b < a
      · simp [hba]
      · have e1 : a = b := by omega
        subst e1
        simp only [hab, if_false]
        apply ih
        intro h
        exact hne (by rw [h])

theorem strLt_asymm (s t : Str) (h : strLt s t = true) : strLt t s = false := by
  cases h2 : strLt t s with
  | false => rfl
  | true =>
    have := strLt_trans s t s h h2
    rw [strLt_irrefl] at this
    cases this

/-! ## Lemmas on `Less` -/

theorem lex_irrefl (s : Str) : ¬ List.Lex (· < ·) s s := by
  rw [← strLt_iff_lex, strLt_irrefl]; simp

theorem lessBody_iff (a b : Comment) : lessBody a b = true ↔ KeyLt a b := by
  unfold lessBody KeyLt
  by_cases hp : a.Path = b.Path
  · have hirr : ¬ List.Lex (· < ·) a.Path b.Path := by rw [hp]; exact lex_irrefl _
    by_cases hl : a.Line = b.Line
    · have hlt : ¬ a.Line < b.Line := by omega
      simp only [hp, hl, if_true, strLt_iff_lex]
      rw [hp] at hirr
      simp [hirr]
    · simp only [hp, hl, if_true, if_false, decide_eq_true_eq]
      rw [hp] at hirr
      simp [hirr]
  · simp only [hp, if_false, strLt_iff_lex]
    simp

theorem lessBody_irrefl (a : Comment) : lessBody a a = false := by
  simp [lessBody, strLt_irrefl]

theorem lessBody_same_path (a b : Comment) (hp : a.Path = b.Path) :
    lessBody a b = if a.Line = b.Line then strLt a.Created b.Created
      else decide (a.Line < b.Line) := by
  unfold lessBody; rw [if_pos hp]

theorem lessBody_diff_path (a b : Comment) (hp : ¬ a.Path = b.Path) :
    lessBody a b = strLt a.Path b.Path := by
  unfold lessBody; rw [if_neg hp]

theorem lessBody_trans (a b c : Comment) (h1 : lessBody a b = true)
    (h2 : lessBody b c = true) : lessBody a c = true := by
  by_cases hab : a.Path = b.Path
  · by_cases hbc : b.Path = c.Path
    · have hac : a.Path = c.Path := hab.trans hbc
      rw [lessBody_same_path _ _ hab] at h1
      rw [lessBody_same_path _ _ hbc] at h2
      rw [lessBody_same_path _ _ hac]
      by_cases lab : a.Line = b.Line
      · by_cases lbc : b.Line = c.Line
        · have lac : a.Line = c.Line := lab.trans lbc
          rw [if_pos lab] at h1
          rw [if_pos lbc] at h2
          rw [if_pos lac]
          exact strLt_trans _ _ _ h1 h2
        · have lac : ¬ a.Line = c.Line := by omega
          rw [if_neg lbc, decide_eq_true_eq] at h2
          rw [if_neg lac, decide_eq_true_eq]
          omega
      · rw [if_neg lab, decide_eq_true_eq] at h1
        by_cases lbc : b.Line = c.Line
        · have lac : ¬ a.Line = c.Line := by omega
          rw [if_neg lac, decide_eq_true_eq]
          omega
        · rw [if_neg lbc, decide_eq_true_eq] at h2
          have lac : ¬ a.Line = c.Line := by omega
          rw [if_neg lac, decide_eq_true_eq]
          omega
    · have hac : ¬ a.Path = c.Path := by rw [hab]; exact hbc
      rw [lessBody_diff_path _ _ hbc] at h2
      rw [lessBody_diff_path _ _ hac, hab]
      exact h2
  · rw [lessBody_diff_path _ _ hab] at h1
    by_cases hbc : b.Path = c.Path
    · have hac : ¬ a.Path = c.Path := by rw [← hbc]; exact hab
      rw [lessBody_diff_path _ _ hac, ← hbc]
      exact h1
    · rw [lessBody_diff_path _ _ hbc] at h2
      have h3 := strLt_trans _ _ _ h1 h2
      have hac : ¬ a.Path = c.Path := by
        intro h
        rw [h, strLt_irrefl] at h3
        cases h3
      rw [lessBody_diff_path _ _ hac]
      exact h3

theorem lessBody_asymm (a b : Comment) (h : lessBody a b = true) : lessBody b a = false := by
  cases h2 : lessBody b a with
  | false => rfl
  | true =>
    have := lessBody_trans a b a h h2
    rw [lessBody_irrefl] at this
    cases this

theorem lessBody_total (a b : Comment) (h : a.key ≠ b.key) :
    lessBody a b = true ∨ lessBody b a = true := by
  unfold lessBody
  by_cases hp : a.Path = b.Path
  · by_cases hl : a.Line = b.Line
    · have hc : a.Created ≠ b.Created := by
        intro hc
        apply h
        simp [Comment.key, hp, hl, hc]
      simp only [hp, hl, if_true]
      exact strLt_total _ _ hc
    · have hl2 : ¬ b.Line = a.Line := fun e => hl e.symm
      simp only [hp, hl, hl2, if_true, if_false, decide_eq_true_eq]
      omega
  · have hp2 : ¬ b.Path = a.Path := fun e => hp e.symm
    simp only [hp, hp2, if_false]
    exact strLt_total _ _ hp

theorem Less_eq (l : CommentList) (i j : Nat) (hi : i < l.length) (hj : j < l.length) :
    l.Less i j = some (lessBody l[i] l[j]) := by
  simp [CommentList.Less, List.getElem?_eq_getElem hi, List.getElem?_eq_getElem hj]

/-! ## C1 -/

/-- C1: on valid indices `CommentList.Less` never panics and decides exactly the
strict lexicographic order on `(Path, Line, Created)`; it is irreflexive and
transitive, and for two comments with different keys exactly one of
`Less(i, j)`, `Less(j, i)` is true. -/
theorem C1_less_is_lexicographic (l : CommentList) (i j k : Nat)
    (hi : i < l.length) (hj : j < l.length) (hk : k < l.length) :
    (l.Less i j = some true ↔ KeyLt l[i] l[j]) ∧
    (l.Less i j = some false ↔ ¬ KeyLt l[i] l[j]) ∧
    l.Less i i = some false ∧
    (l.Less i j = some true → l.Less j k = some true → l.Less i k = some true) ∧
    (l[i].key ≠ l[j].key →
      (l.Less i j = some true ∧ l.Less j i = some false) ∨
      (l.Less i j = some false ∧ l.Less j i = some true)) := by
  rw [Less_eq l i j hi hj, Less_eq l i i hi hi, Less_eq l j k hj hk, Less_eq l i k hi hk,
    Less_eq l j i hj hi]
  simp only [Option.some.injEq]
  refine ⟨lessBody_iff _ _, ?_, lessBody_irrefl _, lessBody_trans _ _ _, ?_⟩
  · rw [← lessBody_iff]; simp
  · intro hne
    rcases lessBody_total _ _ hne with h | h
    · exact Or.inl ⟨h, lessBody_asymm _ _ h⟩
    · exact Or.inr ⟨lessBody_asymm _ _ h, h⟩

/-- C1 at `c1Comments`, indices 0, 1, 2. -/
theorem C1_less_is_lexicographic_witness :
    (0 < c1Comments.length ∧ 1 < c1Comments.length ∧ 2 < c1Comments.length) ∧
    c1Comments.Less 0 1 = some true ∧
    c1Comments.Less 1 2 = some true ∧
    c1Comments.Less 0 2 = some true ∧
    c1Comments.Less 0 0 = some false :=
  have h := C1_less_is_lexicographic c1Comments 0 1 2 (by decide) (by decide) (by decide)
  ⟨by decide, by decide, by decide, h.2.2.2.1 (by decide) (by decide), h.2.2.1⟩

/-! ## The contract of sort.Sort -/

theorem isSorted_iff_pairwise (out : CommentList) :
    IsSorted out ↔ out.Pairwise (fun a b => lessBody b a = false) := by
  rw [List.pairwise_iff_getElem]
  constructor
  · intro h i j hi hj hij
    have := h j hj i hij
    rw [Less_eq out j i hj hi] at this
    simpa using this
  · intro h j hj i hij
    have hi : i < out.length := by omega
    rw [Less_eq out j i hj hi]
    simp [h i j hi hj hij]

theorem lessBody_congr_right (a b c : Comment) (h : a.key = b.key) :
    lessBody c a = lessBody c b := by
  simp only [Comment.key, Prod.mk.injEq] at h
  obtain ⟨h1, h2, h3⟩ := h
  simp [lessBody, h1, h2, h3]

theorem lessBody_negtrans (a b c : Comment) (h1 : lessBody b a = false)
    (h2 : lessBody c b = false) : lessBody c a = false := by
  by_cases hk : a.key = b.key
  · rw [lessBody_congr_right a b c hk]; exact h2
  · rcases lessBody_total a b hk with h | h
    · cases h3 : lessBody c a with
      | false => rfl
      | true =>
        have := lessBody_trans c a b h3 h
        rw [h2] at this; cases this
    · rw [h1] at h; cases h

/-- The contract of `sort.Sort` can be met on every input. -/
theorem sortSort_exists (l : CommentList) : ∃ out, SortSort l out := by
  haveI : IsTotal Comment (fun a b => lessBody b a = false) := ⟨fun a b => by
    cases h : lessBody b a with
    | false => exact Or.inl rfl
    | true => exact Or.inr (lessBody_asymm b a h)⟩
  haveI : IsTrans Comment (fun a b => lessBody b a = false) :=
    ⟨fun a b c h1 h2 => lessBody_negtrans a b c h1 h2⟩
  exact ⟨l.insertionSort (fun a b => lessBody b a = false),
    List.perm_insertionSort _ l,
    (isSorted_iff_pairwise _).mpr (List.sorted_insertionSort _ l)⟩

/-! ## C3, C4: guessDiffColumn -/

theorem badLine_false_iff (ln : Str) (g : Nat) :
    badLine ln g = false ↔ ConsistentLine ln g := by
  unfold badLine ConsistentLine
  by_cases h : ln.length > g + 1
  · have h2 : ¬ ln.length < g + 2 := by omega
    simp only [h, if_true, h2, false_or]
    cases ln[g]? <;> cases ln[g + 1]? <;> simp
    rename_i a b
    by_cases ha : a = 32 <;> simp [ha]
    tauto
  · have h2 : ln.length < g + 2 := by omega
    simp [h, h2]

theorem badLine_nil (g : Nat) : badLine [] g = false := by
  simp [badLine]

theorem goodGuessFrom_iff (n guess : Nat) :
    ∀ (rest : List Str) (i : Nat),
      goodGuessFrom n guess i rest = true ↔ ∀ ln ∈ rest, ConsistentLine ln guess
  | [], i => by simp [goodGuessFrom]
  | ln :: rest, i => by
    have ih := goodGuessFrom_iff n guess rest (i + 1)
    unfold goodGuessFrom
    simp only [List.mem_cons, forall_eq_or_imp]
    by_cases h1 : i = n - 1 ∧ ln.length = 0
    · rw [if_pos h1, ih]
      have hc : ConsistentLine ln guess := Or.inl (by omega)
      simp [hc]
    · rw [if_neg h1]
      cases hb : badLine ln guess with
      | true =>
        have hc : ¬ ConsistentLine ln guess := by
          rw [← badLine_false_iff, hb]; simp
        simp [hc]
      | false =>
        have hc : ConsistentLine ln guess := (badLine_false_iff _ _).mp hb
        simp [hc, ih]

theorem goodGuess_iff (lines : List Str) (guess : Nat) :
    goodGuessFrom lines.length guess 0 lines = true ↔ Consistent lines guess :=
  goodGuessFrom_iff _ _ lines 0

theorem guessLoop_spec (lines : List Str) (len0 : Nat) :
    ∀ (fuel guess : Nat), len0 - 1 - guess ≤ fuel →
      (∃ g, guess ≤ g ∧ g < len0 - 1 ∧ Consistent lines g ∧
        (∀ g2, guess ≤ g2 → g2 < g → ¬ Consistent lines g2) ∧
        guessLoop lines len0 fuel guess = g + 1) ∨
      ((∀ g, guess ≤ g → g < len0 - 1 → ¬ Consistent lines g) ∧
        guessLoop lines len0 fuel guess = 0)
  | 0, guess, hf => by
    right
    refine ⟨fun g h1 h2 => ?_, rfl⟩
    omega
  | fuel + 1, guess, hf => by
    unfold guessLoop
    by_cases hlt : guess < len0 - 1
    · rw [if_pos hlt]
      by_cases hg : Consistent lines guess
      · rw [if_pos ((goodGuess_iff _ _).mpr hg)]
        left
        exact ⟨guess, le_refl _, hlt, hg, fun g2 h1 h2 => by omega, rfl⟩
      · have hg2 : ¬ goodGuessFrom lines.length guess 0 lines = true := by
          rw [goodGuess_iff]; exact hg
        rw [if_neg hg2]
        rcases guessLoop_spec lines len0 fuel (guess + 1) (by omega) with
          ⟨g, h1, h2, h3, h4, h5⟩ | ⟨h1, h2⟩
        · left
          refine ⟨g, by omega, h2, h3, ?_, h5⟩
          intro g2 hg2a hg2b
          by_cases e : g2 = guess
          · rw [e]; exact hg
          · exact h4 g2 (by omega) hg2b
        · right
          refine ⟨?_, h2⟩
          intro g hga hgb
          by_cases e : g = guess
          · rw [e]; exact hg
          · exact h1 g (by omega) hgb
    · rw [if_neg hlt]
      right
      refine ⟨fun g h1 h2 => ?_, rfl⟩
      omega

/-- C3: `guessDiffColumn` is the reference definition: 0 on the empty list and
when the first line has length at most 4; otherwise `g+1` for the smallest
consistent candidate `g` with `len(first)/2 - 2 ≤ g ≤ len(first) - 2`, and 0
when no candidate in that range is consistent. The exemption of an empty final
line is invisible: consistency is required of every line. -/
theorem C3_guessDiffColumn_reference :
    guessDiffColumn [] = 0 ∧
    ∀ (first : Str) (rest : List Str),
      (first.length ≤ 4 → guessDiffColumn (first :: rest) = 0) ∧
      (4 < first.length →
        (∃ g, first.length / 2 - 2 ≤ g ∧ g ≤ first.length - 2 ∧
          Consistent (first :: rest) g ∧
          (∀ g2, first.length / 2 - 2 ≤ g2 → g2 < g → ¬ Consistent (first :: rest) g2) ∧
          guessDiffColumn (first :: rest) = g + 1) ∨
        ((∀ g, first.length / 2 - 2 ≤ g → g ≤ first.length - 2 →
            ¬ Consistent (first :: rest) g) ∧
          guessDiffColumn (first :: rest) = 0)) := by
  refine ⟨rfl, fun first rest => ⟨?_, ?_⟩⟩
  · intro h
    simp [guessDiffColumn, h]
  · intro h
    have hn : ¬ first.length ≤ 4 := by omega
    simp only [guessDiffColumn, hn, if_false]
    rcases guessLoop_spec (first :: rest) first.length first.length
        (first.length / 2 - 2) (by omega) with ⟨g, h1, h2, h3, h4, h5⟩ | ⟨h1, h2⟩
    · left
      exact ⟨g, h1, by omega, h3, h4, h5⟩
    · right
      exact ⟨fun g ha hb => h1 g ha (by omega), h2⟩

/-- C3 at the two-line diff `exampleDiff`: candidate 3 is the smallest
consistent one from 2 on, and the result is 4. -/
theorem C3_guessDiffColumn_reference_witness :
    (4 < (bytes "abc | xyz").length) ∧
    ¬ Consistent exampleDiff 2 ∧ Consistent exampleDiff 3 ∧
    ((∃ g, (bytes "abc | xyz").length / 2 - 2 ≤ g ∧ g ≤ (bytes "abc | xyz").length - 2 ∧
        Consistent exampleDiff g ∧
        (∀ g2, (bytes "abc | xyz").length / 2 - 2 ≤ g2 → g2 < g → ¬ Consistent exampleDiff g2) ∧
        guessDiffColumn exampleDiff = g + 1) ∨
      ((∀ g, (bytes "abc | xyz").length / 2 - 2 ≤ g → g ≤ (bytes "abc | xyz").length - 2 →
          ¬ Consistent exampleDiff g) ∧
        guessDiffColumn exampleDiff = 0)) :=
  ⟨by decide, by decide, by decide,
    (C3_guessDiffColumn_reference.2 (bytes "abc | xyz") [bytes "def | uvw"]).2 (by decide)⟩

/-- C4 (counterexample): on the lines "abc | xyz", "def | uvw" the result is
not 5. -/
theorem C4_example_not_five : guessDiffColumn exampleDiff ≠ 5 := by decide

/-- C4 (amended): on the lines "abc | xyz", "def | uvw" (space at index 3,
`|` at index 4) `guessDiffColumn` returns 4, the index of the `|`. -/
theorem C4_example_is_four :
    guessDiffColumn [bytes "abc | xyz", bytes "def | uvw"] = 4 ∧
    (bytes "abc | xyz")[3]? = some 32 ∧ (bytes "abc | xyz")[4]? = some 124 := by decide

/-! ## lineMap -/

theorem skipSpec_ge (dc : Nat) :
    ∀ (s : List Str) (di d : Nat), skipSpec dc s di = some d → di ≤ d
  | [], _, _, h => by simp [skipSpec] at h
  | ln :: rest, di, d, h => by
    unfold skipSpec at h
    by_cases ha : additionOnly dc ln = true
    · rw [if_pos ha] at h
      have := skipSpec_ge dc rest (di + 1) d h
      omega
    · rw [if_neg ha] at h
      simp only [Option.some.injEq] at h
      omega

theorem skipAdditions_refines (dl : List Str) (dc : Nat) :
    ∀ (fuel di : Nat), (dl.drop di).length + 1 ≤ fuel →
      skipAdditions dl dc fuel di = Res.ofOption (skipSpec dc (dl.drop di) di)
  | 0, _, h => by omega
  | fuel + 1, di, h => by
    unfold skipAdditions
    by_cases hd : di < dl.length
    · have e : dl.drop di = dl[di] :: dl.drop (di + 1) := List.drop_eq_getElem_cons hd
      rw [List.getElem?_eq_getElem hd, e]
      simp only [skipSpec]
      by_cases ha : additionOnly dc dl[di] = true
      · rw [if_pos ha, if_pos ha]
        apply skipAdditions_refines dl dc fuel (di + 1)
        rw [e] at h
        simp only [List.length_cons] at h
        omega
      · rw [if_neg ha, if_neg ha]
        rfl
    · have e : dl.drop di = [] := List.drop_eq_nil_of_le (by omega)
      have e2 : dl[di]? = none := List.getElem?_eq_none (by omega)
      rw [e2, e]
      rfl

theorem mapSpec_step (dc n : Nat) :
    ∀ (s : List Str) (di : Nat),
      mapSpec dc s di (n + 1) =
        match skipSpec dc s di with
        | none => none
        | some d => (mapSpec dc (s.drop (d - di + 1)) (d + 1) n).map (fun m => d :: m)
  | [], di => by simp [mapSpec, skipSpec]
  | ln :: rest, di => by
    by_cases ha : additionOnly dc ln = true
    · have ih := mapSpec_step dc n rest (di + 1)
      simp only [mapSpec, skipSpec, if_pos ha]
      rw [ih]
      cases hs : skipSpec dc rest (di + 1) with
      | none => rfl
      | some d =>
        have hge := skipSpec_ge dc rest (di + 1) d hs
        have e : d - di + 1 = (d - (di + 1) + 1) + 1 := by omega
        simp only [e, List.drop_succ_cons]
    · simp only [mapSpec, skipSpec, if_neg ha, Nat.sub_self, Nat.zero_add, List.drop_succ_cons,
        List.drop_zero]

theorem lineMapLoop_refines (dl : List Str) (dc : Nat) :
    ∀ (ll : List Str) (di : Nat),
      lineMapLoop dl dc ll di = Res.ofOption (mapSpec dc (dl.drop di) di ll.length)
  | [], di => by simp [lineMapLoop, mapSpec, Res.ofOption]
  | _ :: ll, di => by
    unfold lineMapLoop
    rw [skipAdditions_refines dl dc (dl.length + 1) di (by simp), List.length_cons,
      mapSpec_step]
    cases hs : skipSpec dc (dl.drop di) di with
    | none => rfl
    | some d =>
      have hge := skipSpec_ge dc _ di d hs
      have e : (dl.drop di).drop (d - di + 1) = dl.drop (d + 1) := by
        rw [List.drop_drop]; congr 1; omega
      simp only [Res.ofOption, e]
      rw [lineMapLoop_refines dl dc ll (d + 1)]
      cases mapSpec dc (dl.drop (d + 1)) (d + 1) ll.length <;> rfl

theorem lineMap_eq_mapSpec (left diff : Str) :
    lineMap left diff =
      Res.ofOption (mapSpec (guessDiffColumn (splitLines diff)) (splitLines diff) 0
        (splitLines left).length) := by
  unfold lineMap
  simp only
  rw [lineMapLoop_refines, List.drop_zero]

/-- The fuel given to the inner loop is enough: `lineMap` returns or panics. -/
theorem lineMap_ne_fuelOut (left diff : Str) : lineMap left diff ≠ Res.fuelOut := by
  rw [lineMap_eq_mapSpec]
  cases mapSpec (guessDiffColumn (splitLines diff)) (splitLines diff) 0
    (splitLines left).length <;> simp [Res.ofOption]

theorem mapSpec_none_iff (dc : Nat) :
    ∀ (s : List Str) (di n : Nat),
      mapSpec dc s di n = none ↔ s.countP (fun x => !additionOnly dc x) < n
  | _, _, 0 => by simp [mapSpec]
  | [], _, n + 1 => by simp [mapSpec]
  | ln :: rest, di, n + 1 => by
    by_cases ha : additionOnly dc ln = true
    · have ih := mapSpec_none_iff dc rest (di + 1) (n + 1)
      simp only [mapSpec, if_pos ha, List.countP_cons, ha, Bool.not_true]
      simpa using ih
    · have ih := mapSpec_none_iff dc rest (di + 1) n
      have hb : additionOnly dc ln = false := by simpa using ha
      simp only [mapSpec, hb, Bool.false_eq_true, if_false, Option.map_eq_none',
        List.countP_cons, Bool.not_false, if_true]
      rw [ih]
      omega

theorem mapSpec_wf (dc : Nat) :
    ∀ (s : List Str) (di n : Nat) (m : List Nat), mapSpec dc s di n = some m →
      m.length = n ∧ (∀ d ∈ m, di ≤ d ∧ d < di + s.length) ∧ m.Pairwise (· < ·)
  | s, di, 0, m, h => by
    cases s <;> simp only [mapSpec, Option.some.injEq] at h <;> subst h <;> simp
  | [], _, n + 1, m, h => by simp [mapSpec] at h
  | ln :: rest, di, n + 1, m, h => by
    by_cases ha : additionOnly dc ln = true
    · simp only [mapSpec, if_pos ha] at h
      obtain ⟨h1, h2, h3⟩ := mapSpec_wf dc rest (di + 1) (n + 1) m h
      refine ⟨h1, ?_, h3⟩
      intro d hd
      have := h2 d hd
      simp only [List.length_cons]
      omega
    · simp only [mapSpec, if_neg ha, Option.map_eq_some'] at h
      obtain ⟨m2, hm2, rfl⟩ := h
      obtain ⟨h1, h2, h3⟩ := mapSpec_wf dc rest (di + 1) n m2 hm2
      refine ⟨by simp [h1], ?_, ?_⟩
      · intro d hd
        simp only [List.mem_cons] at hd
        simp only [List.length_cons]
        rcases hd with rfl | hd
        · omega
        · have := h2 d hd
          omega
      · rw [List.pairwise_cons]
        refine ⟨?_, h3⟩
        intro d hd
        have := h2 d hd
        omega

theorem mapSpec_index (dc : Nat) :
    ∀ (s : List Str) (di n : Nat) (m : List Nat), mapSpec dc s di n = some m →
      ∀ li, li < n → ∃ d ln, m[li]? = some d ∧ di ≤ d ∧ s[d - di]? = some ln ∧
        additionOnly dc ln = false ∧
        (s.take (d - di)).countP (fun x => !additionOnly dc x) = li
  | _, _, 0, _, _ => by intro li hli; omega
  | [], _, n + 1, m, h => by simp [mapSpec] at h
  | ln :: rest, di, n + 1, m, h => by
    intro li hli
    by_cases ha : additionOnly dc ln = true
    · simp only [mapSpec, if_pos ha] at h
      obtain ⟨d, x, h1, h2, h3, h4, h5⟩ := mapSpec_index dc rest (di + 1) (n + 1) m h li hli
      have e : d - di = (d - (di + 1)) + 1 := by omega
      refine ⟨d, x, h1, by omega, ?_, h4, ?_⟩
      · rw [e, List.getElem?_cons_succ]; exact h3
      · rw [e, List.take_succ_cons, List.countP_cons, h5]
        simp [ha]
    · have hb : additionOnly dc ln = false := by simpa using ha
      simp only [mapSpec, if_neg ha, Option.map_eq_some'] at h
      obtain ⟨m2, hm2, rfl⟩ := h
      cases li with
      | zero =>
        exact ⟨di, ln, by simp, le_refl _, by simp, hb, by simp⟩
      | succ k =>
        obtain ⟨d, x, h1, h2, h3, h4, h5⟩ :=
          mapSpec_index dc rest (di + 1) n m2 hm2 k (by omega)
        have e : d - di = (d - (di + 1)) + 1 := by omega
        refine ⟨d, x, by simpa using h1, by omega, ?_, h4, ?_⟩
        · rw [e, List.getElem?_cons_succ]; exact h3
        · rw [e, List.take_succ_cons, List.countP_cons, h5]
          simp [hb]

theorem mapSpec_identity (dc : Nat) :
    ∀ (n : Nat) (s : List Str) (di : Nat),
      (∀ i, i < n → ∃ ln, s[i]? = some ln ∧ additionOnly dc ln = false) →
        mapSpec dc s di n = some (List.range' di n)
  | 0, s, di, _ => by cases s <;> simp [mapSpec]
  | n + 1, [], di, h => by
    obtain ⟨ln, h1, _⟩ := h 0 (by omega)
    simp at h1
  | n + 1, ln :: rest, di, h => by
    obtain ⟨x, h1, h2⟩ := h 0 (by omega)
    simp only [List.getElem?_cons_zero, Option.some.injEq] at h1
    subst h1
    have ha : ¬ additionOnly dc ln = true := by simp [h2]
    have ih := mapSpec_identity dc n rest (di + 1) (fun i hi => by
      obtain ⟨y, hy1, hy2⟩ := h (i + 1) (by omega)
      rw [List.getElem?_cons_succ] at hy1
      exact ⟨y, hy1, hy2⟩)
    simp only [mapSpec, if_neg ha, ih, Option.map_some', List.range'_succ]

theorem ofOption_eq_ok {α : Type} (o : Option α) (a : α) :
    Res.ofOption o = Res.ok a ↔ o = some a := by
  cases o <;> simp [Res.ofOption]

theorem ofOption_eq_panic {α : Type} (o : Option α) :
    Res.ofOption o = Res.panic ↔ o = none := by
  cases o <;> simp [Res.ofOption]

/-! ## C5 -/

/-- C5: whenever `lineMap` returns `m`, `m[li]` is, for every `li < len(ll)`, the
index in `dl` of the `(li+1)`-th line that is not addition-only: the line there
is not addition-only and exactly `li` lines before it are not addition-only. In
particular, 3 before-lines against 3 diff lines without an addition-only line
give `[0,1,2]`, and against 4 diff lines of which the second, and only the
second, is addition-only give `[0,2,3]`. -/
theorem C5_lineMap_skips_additions (left diff : Str) :
    (∀ m, lineMap left diff = Res.ok m →
      ∀ li, li < (splitLines left).length →
        ∃ d ln, m[li]? = some d ∧ (splitLines diff)[d]? = some ln ∧
          additionOnly (guessDiffColumn (splitLines diff)) ln = false ∧
          ((splitLines diff).take d).countP
            (fun x => !additionOnly (guessDiffColumn (splitLines diff)) x) = li) ∧
    ((splitLines left).length = 3 →
      (∃ a b c, splitLines diff = [a, b, c] ∧
        additionOnly (guessDiffColumn (splitLines diff)) a = false ∧
        additionOnly (guessDiffColumn (splitLines diff)) b = false ∧
        additionOnly (guessDiffColumn (splitLines diff)) c = false) →
      lineMap left diff = Res.ok [0, 1, 2]) ∧
    ((splitLines left).length = 3 →
      (∃ a b c d, splitLines diff = [a, b, c, d] ∧
        additionOnly (guessDiffColumn (splitLines diff)) a = false ∧
        additionOnly (guessDiffColumn (splitLines diff)) b = true ∧
        additionOnly (guessDiffColumn (splitLines diff)) c = false ∧
        additionOnly (guessDiffColumn (splitLines diff)) d = false) →
      lineMap left diff = Res.ok [0, 2, 3]) := by
  refine ⟨?_, ?_, ?_⟩
  · intro m h li hli
    rw [lineMap_eq_mapSpec, ofOption_eq_ok] at h
    obtain ⟨d, ln, h1, _, h3, h4, h5⟩ := mapSpec_index _ _ 0 _ m h li hli
    exact ⟨d, ln, h1, h3, h4, h5⟩
  · rintro hl ⟨a, b, c, hd, ha, hb, hc⟩
    rw [lineMap_eq_mapSpec, hl]
    generalize guessDiffColumn (splitLines diff) = dc at ha hb hc
    rw [hd]
    simp [mapSpec, ha, hb, hc, Res.ofOption]
  · rintro hl ⟨a, b, c, d, hd, ha, hb, hc, hdd⟩
    rw [lineMap_eq_mapSpec, hl]
    generalize guessDiffColumn (splitLines diff) = dc at ha hb hc hdd
    rw [hd]
    simp [mapSpec, ha, hb, hc, hdd, Res.ofOption]

/-- C5 at `before3` against `diff4`, whose second line is an addition. -/
theorem C5_lineMap_skips_additions_witness :
    (splitLines before3).length = 3 ∧
    (splitLines diff4).length = 4 ∧
    guessDiffColumn (splitLines diff4) = 4 ∧
    lineMap before3 diff4 = Res.ok [0, 2, 3] :=
  ⟨by decide, by decide, by decide,
    (C5_lineMap_skips_additions before3 diff4).2.2 (by decide)
      ⟨bytes "xxx   xxx", bytes "    > new", bytes "yyy   yyy", bytes "zzz   zzz",
        by decide, by decide, by decide, by decide, by decide⟩⟩

/-! ## C6 -/

/-- C6: a mapping that `lineMap` returns has one entry per before-line, is
strictly increasing, hence non-decreasing, and each entry is an index of the
diff lines. -/
theorem C6_lineMap_well_formed (left diff : Str) (m : List Nat)
    (h : lineMap left diff = Res.ok m) :
    m.length = (splitLines left).length ∧
    m.Pairwise (· < ·) ∧
    m.Pairwise (· ≤ ·) ∧
    ∀ (li d : Nat), m[li]? = some d → 0 ≤ d ∧ d < (splitLines diff).length := by
  rw [lineMap_eq_mapSpec, ofOption_eq_ok] at h
  obtain ⟨h1, h2, h3⟩ := mapSpec_wf _ _ 0 _ m h
  refine ⟨h1, h3, h3.imp (fun hab => Nat.le_of_lt hab), ?_⟩
  intro li d hd
  have := h2 d (List.getElem?_mem hd)
  omega

/-- C6 at `before3` against `diff4`. -/
theorem C6_lineMap_well_formed_witness :
    lineMap before3 diff4 = Res.ok [0, 2, 3] ∧
    [0, 2, 3].length = (splitLines before3).length ∧
    [0, 2, 3].Pairwise (· < ·) ∧
    (∀ (li d : Nat), [0, 2, 3][li]? = some d → 0 ≤ d ∧ d < (splitLines diff4).length) :=
  have h := C6_lineMap_well_formed before3 diff4 [0, 2, 3] (by decide)
  ⟨by decide, h.1, h.2.1, h.2.2.2⟩

/-! ## C7 -/

/-- C7: `lineMap` fails, by the index-out-of-range panic at `dl[di]`, exactly
when fewer diff lines are not addition-only than there are before-lines; in
every other case it returns a mapping, all of whose entries are valid
indices of the diff lines. -/
theorem C7_lineMap_fails_iff_exhausted (left diff : Str) :
    (lineMap left diff = Res.panic ↔
      (splitLines diff).countP
        (fun x => !additionOnly (guessDiffColumn (splitLines diff)) x) <
      (splitLines left).length) ∧
    (¬ ((splitLines diff).countP
        (fun x => !additionOnly (guessDiffColumn (splitLines diff)) x) <
        (splitLines left).length) →
      ∃ m, lineMap left diff = Res.ok m ∧ ∀ d ∈ m, d < (splitLines diff).length) := by
  rw [lineMap_eq_mapSpec, ofOption_eq_panic, mapSpec_none_iff]
  refine ⟨Iff.rfl, ?_⟩
  intro hn
  rw [← mapSpec_none_iff _ _ 0] at hn
  cases hm : mapSpec (guessDiffColumn (splitLines diff)) (splitLines diff) 0
      (splitLines left).length with
  | none => exact absurd hm hn
  | some m =>
    refine ⟨m, rfl, ?_⟩
    intro d hd
    have := (mapSpec_wf _ _ 0 _ m hm).2.1 d hd
    omega

/-- C7 at a one-line diff against a two-line before-text (failure) and at
`diff4` against `before3` (a mapping). -/
theorem C7_lineMap_fails_iff_exhausted_witness :
    lineMap (bytes "x\ny") (bytes "xxx   xxx") = Res.panic ∧
    ∃ m, lineMap before3 diff4 = Res.ok m ∧ ∀ d ∈ m, d < (splitLines diff4).length :=
  ⟨(C7_lineMap_fails_iff_exhausted (bytes "x\ny") (bytes "xxx   xxx")).1.mpr (by decide),
    (C7_lineMap_fails_iff_exhausted before3 diff4).2 (by decide)⟩

/-! ## C8 -/

/-- C8 (counterexample): for the diff lines ">x", "y" the guessed column is 0,
the before-text "x" has one line, and the mapping is `[1]`, not `[0]`. -/
theorem C8_column_zero_still_skips :
    guessDiffColumn (splitLines (bytes ">x\ny")) = 0 ∧
    (splitLines (bytes "x")).length ≤ (splitLines (bytes ">x\ny")).length ∧
    lineMap (bytes "x") (bytes ">x\ny") = Res.ok [1] := by decide

/-- C8 (amended): when `guessDiffColumn` returns 0, `lineMap` reads the marker
at column 0; for a before-text with at most `len(diffLines)` lines it returns
the identity mapping, `mapping[li] = li` for every `li`, exactly when none of
the first `len(ll)` diff lines begins with `>`. -/
theorem C8_column_zero_identity_iff (left diff : Str)
    (h0 : guessDiffColumn (splitLines diff) = 0)
    (hlen : (splitLines left).length ≤ (splitLines diff).length) :
    lineMap left diff = Res.ok (List.range (splitLines left).length) ↔
      ∀ ln ∈ (splitLines diff).take (splitLines left).length, ln[0]? ≠ some 62 := by
  have hadd : ∀ ln : Str, additionOnly 0 ln = false ↔ ln[0]? ≠ some 62 := by
    intro ln
    cases ln with
    | nil => simp [additionOnly]
    | cons c cs => simp [additionOnly]
  rw [lineMap_eq_mapSpec, ofOption_eq_ok, h0]
  constructor
  · intro h ln hmem
    obtain ⟨i, hi, hi2⟩ := List.mem_take_iff_getElem.mp hmem
    have hln : (splitLines diff)[i]? = some ln := by
      rw [← hi2]; exact List.getElem?_eq_getElem _
    have hi : i < (splitLines left).length := by omega
    obtain ⟨d, x, h1, _, h3, h4, _⟩ := mapSpec_index 0 _ 0 _ _ h i hi
    rw [List.getElem?_range hi] at h1
    simp only [Option.some.injEq] at h1
    subst h1
    simp only [Nat.sub_zero] at h3
    rw [hln] at h3
    simp only [Option.some.injEq] at h3
    subst h3
    exact (hadd _).mp h4
  · intro h
    rw [List.range_eq_range']
    apply mapSpec_identity
    intro i hi
    have hi2 : i < (splitLines diff).length := by omega
    exact ⟨(splitLines diff)[i], List.getElem?_eq_getElem hi2,
      (hadd _).mpr (h _ (List.mem_take_iff_getElem.mpr ⟨i, by omega, rfl⟩))⟩

/-- C8 (amended) at the before-text "x\ny" against the diff lines "x", "y". -/
theorem C8_column_zero_identity_iff_witness :
    guessDiffColumn (splitLines (bytes "x\ny")) = 0 ∧
    lineMap (bytes "x\ny") (bytes "x\ny") = Res.ok [0, 1] :=
  ⟨by decide,
    (C8_column_zero_identity_iff (bytes "x\ny") (bytes "x\ny") (by decide) (by decide)).mpr
      (by decide)⟩

/-! ## C9, C10: the context window -/

theorem lineMap_ok_length_le (left diff : Str) (m : List Nat)
    (h : lineMap left diff = Res.ok m) :
    (splitLines left).length ≤ (splitLines diff).length := by
  rw [lineMap_eq_mapSpec, ofOption_eq_ok] at h
  have hn : ¬ (splitLines diff).countP
      (fun x => !additionOnly (guessDiffColumn (splitLines diff)) x) <
      (splitLines left).length := by
    rw [← mapSpec_none_iff _ _ 0, h]; simp
  have := List.countP_le_length
    (fun x => !additionOnly (guessDiffColumn (splitLines diff)) x) (l := splitLines diff)
  omega

theorem mem_loopIndices (lo hi i : Int) : i ∈ loopIndices lo hi ↔ lo ≤ i ∧ i < hi := by
  unfold loopIndices
  simp only [List.mem_map, List.mem_range]
  constructor
  · rintro ⟨k, hk, rfl⟩
    omega
  · rintro ⟨h1, h2⟩
    exact ⟨(i - lo).toNat, by omega, by omega⟩

theorem length_loopIndices (lo hi : Int) : (loopIndices lo hi).length = (hi - lo).toNat := by
  simp [loopIndices]

theorem printLines_ok (dl : List Str) :
    ∀ idx : List Int, (∀ i ∈ idx, 0 ≤ i ∧ i < (dl.length : Int)) →
      ∃ out, printLines dl idx = Res.ok out ∧ out.length = idx.length
  | [], _ => ⟨[], rfl, rfl⟩
  | i :: rest, h => by
    obtain ⟨h1, h2⟩ := h i (List.mem_cons_self _ _)
    obtain ⟨out, ho, hlen⟩ := printLines_ok dl rest
      (fun j hj => h j (List.mem_cons_of_mem _ hj))
    have hi : i.toNat < dl.length := by omega
    refine ⟨dl[i.toNat] :: out, ?_, by simp [hlen]⟩
    simp [printLines, indexInt, h1, List.getElem?_eq_getElem hi, ho]

/-- C9: on the before-text "x\ny" against a diff of three additions followed by
the two before-lines, with anchor 1, the mapped index is 4 and showComments
prints the single diff line of index 1, because the loop is bounded by
`len(bl) = 2`; the window of the claim, bounded by `len(dl) = 5`, is the four
lines of indices 1 to 4, and the line at the mapped index 4 is not printed. -/
theorem C9_window_bounded_by_before_lines :
    lineMap before2 diff5 = Res.ok [3, 4] ∧
    indexInt [3, 4] 1 = some 4 ∧
    contextBlock before2 diff5 1 = Res.ok [bytes "    > n2"] ∧
    specWindow (splitLines diff5) 4 =
      [bytes "    > n2", bytes "    > n3", bytes "xxx   xxx", bytes "yyy   yyy"] ∧
    (splitLines diff5)[4]? = some (bytes "yyy   yyy") ∧
    bytes "yyy   yyy" ∉ [bytes "    > n2"] := by decide

/-- C10: when `lineMap` returns `m` and `line` is a valid index of `m`, the loop
of showComments visits at most 7 indices, each of them a valid index of the
diff lines, and the block is printed without a panic. -/
theorem C10_window_in_bounds (before d : Str) (m : List Nat) (line : Int) (ml : Nat)
    (hm : lineMap before d = Res.ok m) (hl : indexInt m line = some ml) :
    (loopIndices (max 0 ((ml : Int) - 3))
      (min ((ml : Int) + 4) ((splitLines before).length : Int))).length ≤ 7 ∧
    (∀ i ∈ loopIndices (max 0 ((ml : Int) - 3))
        (min ((ml : Int) + 4) ((splitLines before).length : Int)),
      0 ≤ i ∧ i < ((splitLines d).length : Int)) ∧
    ∃ out, contextBlock before d line = Res.ok out ∧
      out.length = (loopIndices (max 0 ((ml : Int) - 3))
        (min ((ml : Int) + 4) ((splitLines before).length : Int))).length := by
  have hle := lineMap_ok_length_le before d m hm
  have hmem : ∀ i ∈ loopIndices (max 0 ((ml : Int) - 3))
      (min ((ml : Int) + 4) ((splitLines before).length : Int)),
      0 ≤ i ∧ i < ((splitLines d).length : Int) := by
    intro i hi
    rw [mem_loopIndices] at hi
    unfold max min at hi
    split_ifs at hi <;> omega
  refine ⟨?_, hmem, ?_⟩
  · rw [length_loopIndices]
    unfold max min
    split_ifs <;> omega
  · unfold contextBlock
    simp only [hm, hl]
    exact printLines_ok _ _ hmem

/-- C10 at `before3` against `diff4`, anchor 2. -/
theorem C10_window_in_bounds_witness :
    lineMap before3 diff4 = Res.ok [0, 2, 3] ∧ indexInt [0, 2, 3] 2 = some 3 ∧
    ∃ out, contextBlock before3 diff4 2 = Res.ok out ∧
      out.length = (loopIndices (max 0 (((3 : Nat) : Int) - 3))
        (min (((3 : Nat) : Int) + 4) ((splitLines before3).length : Int))).length :=
  ⟨by decide, by decide,
    (C10_window_in_bounds before3 diff4 [0, 2, 3] 2 3 (by decide) (by decide)).2.2⟩

/-! ## C11: grouping in showComments -/

theorem scanGroup_eq (path : Str) (line : Int) :
    ∀ s : List Comment,
      scanGroup path line s =
        ((s.takeWhile (fun c => decide (c.Path = path ∧ c.Line = line))).map commentEvent,
          s.dropWhile (fun c => decide (c.Path = path ∧ c.Line = line)))
  | [] => rfl
  | c :: rest => by
    have ih := scanGroup_eq path line rest
    by_cases h : c.Path = path ∧ c.Line = line
    · simp only [scanGroup, if_pos h, ih, List.takeWhile_cons, List.dropWhile_cons,
        decide_eq_true h, if_true, List.map_cons]
    · simp only [scanGroup, if_neg h, List.takeWhile_cons, List.dropWhile_cons,
        decide_eq_false h, Bool.false_eq_true, if_false, List.map_nil]

theorem printTrace_done (dl : List Str) :
    ∀ idx : List Int, (printTrace dl idx).2 = Status.done →
      ∃ out, printLines dl idx = Res.ok out ∧ (printTrace dl idx).1 = out.map Event.context
  | [], _ => ⟨[], rfl, rfl⟩
  | i :: rest, h => by
    unfold printTrace at h ⊢
    unfold printLines
    cases hi : indexInt dl i with
    | none => rw [hi] at h; cases h
    | some ln =>
      rw [hi] at h
      obtain ⟨out, h1, h2⟩ := printTrace_done dl rest h
      exact ⟨ln :: out, by simp [h1], by simp [h2]⟩

theorem printTrace_ne_fuelOut (dl : List Str) :
    ∀ idx : List Int, (printTrace dl idx).2 ≠ Status.fuelOut
  | [] => by simp [printTrace]
  | i :: rest => by
    unfold printTrace
    cases indexInt dl i with
    | none => simp
    | some ln => exact printTrace_ne_fuelOut dl rest

theorem renderGroup_ne_fuelOut (w : Collaborators) (head_sha path : Str) (line : Int)
    (sha : Str) : (renderGroup w head_sha path line sha).2 ≠ Status.fuelOut := by
  unfold renderGroup
  by_cases h0 : line = 0
  · simp [h0]
  · rw [if_neg h0]
    cases hb : w.gitShow path sha with
    | none => simp
    | some before =>
      cases ha : w.gitShow path head_sha with
      | none => simp
      | some after =>
        cases hm : lineMap before (w.colordiff before after) with
        | fuelOut => exact absurd hm (lineMap_ne_fuelOut _ _)
        | panic => simp [hm]
        | ok m =>
          cases hl : indexInt m line with
          | none => simp [hm, hl]
          | some ml =>
            simp only [hm, hl]
            exact printTrace_ne_fuelOut _ _

theorem renderGroup_done (w : Collaborators) (head_sha : Str) (c : Comment)
    (rest : List Comment) (block : List Event)
    (h : renderGroup w head_sha c.Path c.Line c.CommitId = (block, Status.done)) :
    block = groupBlock w head_sha (c :: rest) ∧
    (c.Line = 0 → block = []) ∧
    (c.Line ≠ 0 → ∃ before after ls,
      w.gitShow c.Path c.CommitId = some before ∧
      w.gitShow c.Path head_sha = some after ∧
      contextBlock before (w.colordiff before after) c.Line = Res.ok ls ∧
      block = Event.header c.Path c.Line :: ls.map Event.context) := by
  unfold renderGroup at h
  simp only [groupBlock]
  by_cases h0 : c.Line = 0
  · rw [if_pos h0] at h
    rw [if_pos h0]
    simp only [Prod.mk.injEq, and_true] at h
    exact ⟨h.symm, fun _ => h.symm, fun hne => absurd h0 hne⟩
  · rw [if_neg h0] at h
    rw [if_neg h0]
    cases hb : w.gitShow c.Path c.CommitId with
    | none => simp [hb] at h
    | some before =>
      cases ha : w.gitShow c.Path head_sha with
      | none => simp [hb, ha] at h
      | some after =>
        cases hm : lineMap before (w.colordiff before after) with
        | fuelOut => simp [hb, ha, hm] at h
        | panic => simp [hb, ha, hm] at h
        | ok m =>
          cases hl : indexInt m c.Line with
          | none => simp [hb, ha, hm, hl] at h
          | some ml =>
            simp only [hb, ha, hm, hl, Prod.mk.injEq] at h
            obtain ⟨h1, h2⟩ := h
            obtain ⟨out, ho1, ho2⟩ := printTrace_done _ _ h2
            have hc : contextBlock before (w.colordiff before after) c.Line = Res.ok out := by
              unfold contextBlock
              simp only [hm, hl]
              exact ho1
            rw [ho2] at h1
            simp only [hc]
            exact ⟨h1.symm, fun e => absurd e h0,
              fun _ => ⟨before, after, out, rfl, rfl, hc, h1.symm⟩⟩

theorem same_group_between (a b c : Comment) (hab : lessBody b a = false)
    (hbc : lessBody c b = false) (hac : c.Path = a.Path ∧ c.Line = a.Line) :
    b.Path = a.Path ∧ b.Line = a.Line := by
  obtain ⟨hp, hl⟩ := hac
  by_cases hbp : b.Path = a.Path
  · refine ⟨hbp, ?_⟩
    by_contra hne
    rw [lessBody_same_path _ _ hbp, if_neg hne] at hab
    have hcb : c.Path = b.Path := hp.trans hbp.symm
    have hne2 : ¬ c.Line = b.Line := by rw [hl]; exact fun e => hne e.symm
    rw [lessBody_same_path _ _ hcb, if_neg hne2] at hbc
    simp only [decide_eq_false_iff_not] at hab hbc
    omega
  · exfalso
    rw [lessBody_diff_path _ _ hbp] at hab
    have hcb : ¬ c.Path = b.Path := by rw [hp]; exact fun e => hbp e.symm
    rw [lessBody_diff_path _ _ hcb, hp] at hbc
    rcases strLt_total a.Path b.Path (fun e => hbp e.symm) with h | h
    · rw [hbc] at h; cases h
    · rw [hab] at h; cases h

theorem dropWhile_cons_not {α : Type} (p : α → Bool) (b : α) (t : List α) :
    ∀ l : List α, l.dropWhile p = b :: t → p b = false
  | [], h => by simp at h
  | a :: l, h => by
    by_cases ha : p a = true
    · rw [List.dropWhile_cons_of_pos ha] at h
      exact dropWhile_cons_not p b t l h
    · rw [List.dropWhile_cons_of_neg ha] at h
      simp only [List.cons.injEq] at h
      rw [← h.1]
      simpa using ha

theorem rest_keys_ne (c : Comment) (rest : List Comment)
    (hs : (c :: rest).Pairwise (fun a b => lessBody b a = false)) :
    ∀ x ∈ rest.dropWhile (fun x => decide (x.Path = c.Path ∧ x.Line = c.Line)),
      ¬ (x.Path = c.Path ∧ x.Line = c.Line) := by
  rw [List.pairwise_cons] at hs
  obtain ⟨hc, hrest⟩ := hs
  have hsub := List.dropWhile_sublist (fun x => decide (x.Path = c.Path ∧ x.Line = c.Line))
    (l := rest)
  have hpw := hrest.sublist hsub
  cases hrem : rest.dropWhile (fun x => decide (x.Path = c.Path ∧ x.Line = c.Line)) with
  | nil => intro x hx; cases hx
  | cons b t =>
    rw [hrem] at hsub hpw
    have hb := dropWhile_cons_not _ b t rest hrem
    simp only [decide_eq_false_iff_not] at hb
    rw [List.pairwise_cons] at hpw
    intro x hx hkey
    rcases List.mem_cons.mp hx with rfl | hx
    · exact hb hkey
    · exact hb (same_group_between c b x (hc b (hsub.subset (List.mem_cons_self _ _)))
        (hpw.1 x hx) hkey)

theorem showLoop_nil (w : Collaborators) (head_sha : Str) (fuel : Nat) :
    showLoop w head_sha fuel [] = ([], Status.done) := by
  cases fuel <;> rfl

theorem showLoop_done (w : Collaborators) (head_sha : Str) :
    ∀ (fuel : Nat) (s : List Comment) (trace : List Event),
      s.Pairwise (fun a b => lessBody b a = false) →
      showLoop w head_sha fuel s = (trace, Status.done) →
      ∃ gs : List (List Comment),
        s = gs.flatten ∧
        (∀ g ∈ gs, ∃ c rest, g = c :: rest ∧ ∀ x ∈ rest, x.Path = c.Path ∧ x.Line = c.Line) ∧
        (gs.map groupKey).Nodup ∧
        trace = gs.flatMap
          (fun g => Event.separator :: g.map commentEvent ++ groupBlock w head_sha g) ∧
        (∀ g ∈ gs, ∀ c rest, g = c :: rest →
          (c.Line = 0 → groupBlock w head_sha g = []) ∧
          (c.Line ≠ 0 → ∃ before after ls,
            w.gitShow c.Path c.CommitId = some before ∧
            w.gitShow c.Path head_sha = some after ∧
            contextBlock before (w.colordiff before after) c.Line = Res.ok ls ∧
            groupBlock w head_sha g = Event.header c.Path c.Line :: ls.map Event.context))
  | fuel, [], trace, _, h => by
    rw [showLoop_nil] at h
    simp only [Prod.mk.injEq, and_true] at h
    subst h
    exact ⟨[], rfl, by simp, by simp, rfl, by simp⟩
  | 0, _ :: _, trace, _, h => by simp [showLoop] at h
  | fuel + 1, c :: rest, trace, hs, h => by
    unfold showLoop at h
    rw [scanGroup_eq] at h
    have hc : decide (c.Path = c.Path ∧ c.Line = c.Line) = true := by simp
    simp only [List.takeWhile_cons, List.dropWhile_cons, hc, if_true] at h
    cases hr : renderGroup w head_sha c.Path c.Line c.CommitId with
    | mk block st =>
      cases st with
      | panic => simp [hr] at h
      | fuelOut => simp [hr] at h
      | done =>
        simp only [hr, Prod.mk.injEq] at h
        obtain ⟨h1, h2⟩ := h
        have hsub := List.dropWhile_sublist
          (fun x => decide (x.Path = c.Path ∧ x.Line = c.Line)) (l := rest)
        have hpw := (List.pairwise_cons.mp hs).2.sublist hsub
        obtain ⟨gs, e1, e2, e3, e4, e5⟩ := showLoop_done w head_sha fuel _ _ hpw
          (Prod.ext rfl h2)
        obtain ⟨hb1, hb2, hb3⟩ := renderGroup_done w head_sha c
          (rest.takeWhile (fun x => decide (x.Path = c.Path ∧ x.Line = c.Line))) block hr
        refine ⟨(c :: rest.takeWhile (fun x => decide (x.Path = c.Path ∧ x.Line = c.Line)))
          :: gs, ?_, ?_, ?_, ?_, ?_⟩
        · rw [List.flatten_cons, ← e1, List.cons_append, List.takeWhile_append_dropWhile]
        · intro g hg
          rcases List.mem_cons.mp hg with rfl | hg
          · refine ⟨c, _, rfl, ?_⟩
            intro x hx
            simpa using List.mem_takeWhile_imp hx
          · exact e2 g hg
        · rw [List.map_cons, List.nodup_cons]
          refine ⟨?_, e3⟩
          intro hmem
          obtain ⟨g, hg, hk⟩ := List.mem_map.mp hmem
          obtain ⟨c2, r2, rfl, _⟩ := e2 g hg
          have hc2 : c2 ∈ rest.dropWhile
              (fun x => decide (x.Path = c.Path ∧ x.Line = c.Line)) := by
            rw [e1]
            exact List.mem_flatten_of_mem hg (List.mem_cons_self _ _)
          simp only [groupKey, Prod.mk.injEq] at hk
          exact rest_keys_ne c rest hs c2 hc2 hk
        · rw [← h1, List.flatMap_cons, ← e4, ← hb1]
          simp
        · intro g hg
          rcases List.mem_cons.mp hg with rfl | hg
          · intro c2 r2 heq
            simp only [List.cons.injEq] at heq
            obtain ⟨rfl, _⟩ := heq
            rw [← hb1]
            exact ⟨hb2, hb3⟩
          · exact e5 g hg

theorem showLoop_ne_fuelOut (w : Collaborators) (head_sha : Str) :
    ∀ (fuel : Nat) (s : List Comment), s.length ≤ fuel →
      (showLoop w head_sha fuel s).2 ≠ Status.fuelOut
  | fuel, [], _ => by rw [showLoop_nil]; simp
  | 0, _ :: _, h => by simp at h
  | fuel + 1, c :: rest, h => by
    unfold showLoop
    have hne := renderGroup_ne_fuelOut w head_sha c.Path c.Line c.CommitId
    cases hr : renderGroup w head_sha c.Path c.Line c.CommitId with
    | mk block st =>
      rw [hr] at hne
      cases st with
      | panic => simp
      | fuelOut => exact absurd rfl hne
      | done =>
        simp only
        apply showLoop_ne_fuelOut w head_sha fuel
        rw [scanGroup_eq]
        have hc : decide (c.Path = c.Path ∧ c.Line = c.Line) = true := by simp
        have e : (c :: rest).dropWhile (fun x => decide (x.Path = c.Path ∧ x.Line = c.Line)) =
            rest.dropWhile (fun x => decide (x.Path = c.Path ∧ x.Line = c.Line)) :=
          List.dropWhile_cons_of_pos hc
        rw [e]
        have := (List.dropWhile_sublist
          (fun x => decide (x.Path = c.Path ∧ x.Line = c.Line)) (l := rest)).length_le
        simp only [List.length_cons] at h
        show (rest.dropWhile (fun x => decide (x.Path = c.Path ∧ x.Line = c.Line))).length ≤ fuel
        omega

/-- The fuel of the outer loop is enough: a run completes or panics. -/
theorem showSorted_ne_fuelOut (w : Collaborators) (pull : PullRequest) (sorted : CommentList) :
    (showSorted w pull sorted).2 ≠ Status.fuelOut :=
  showLoop_ne_fuelOut w pull.Head.SHA sorted.length sorted (le_refl _)

theorem groupBlock_commentOf (w : Collaborators) (head_sha : Str) (g : List Comment) :
    (groupBlock w head_sha g).filterMap Event.commentOf = [] := by
  cases g with
  | nil => rfl
  | cons c rest =>
    simp only [groupBlock]
    by_cases h0 : c.Line = 0
    · simp [h0]
    · rw [if_neg h0]
      cases hb : w.gitShow c.Path c.CommitId with
      | none => simp
      | some before =>
        cases ha : w.gitShow c.Path head_sha with
        | none => simp
        | some after =>
          cases hc : contextBlock before (w.colordiff before after) c.Line with
          | ok ls =>
            simp only [hc, List.filterMap_cons, Event.commentOf, List.filterMap_map]
            rw [List.filterMap_eq_nil_iff]
            intro x _
            rfl
          | panic => simp [hc]
          | fuelOut => simp [hc]

theorem trace_commentOf (w : Collaborators) (head_sha : Str) :
    ∀ gs : List (List Comment),
      (gs.flatMap (fun g => Event.separator :: g.map commentEvent ++
          groupBlock w head_sha g)).filterMap Event.commentOf =
        gs.flatten.map (fun c => (c.User.Login, c.Body))
  | [] => rfl
  | g :: gs => by
    rw [List.flatMap_cons, List.filterMap_append, trace_commentOf w head_sha gs,
      List.flatten_cons, List.map_append]
    congr 1
    rw [List.cons_append, List.filterMap_cons, List.filterMap_append, groupBlock_commentOf,
      List.append_nil, List.filterMap_map]
    simp only [Event.commentOf]
    rw [← List.filterMap_eq_map]
    rfl

theorem trace_headerOf (w : Collaborators) (head_sha : Str) :
    ∀ gs : List (List Comment),
      (∀ g ∈ gs, ∃ c rest, g = c :: rest ∧
        (c.Line = 0 → groupBlock w head_sha g = []) ∧
        (c.Line ≠ 0 → ∃ ls : List Str,
          groupBlock w head_sha g = Event.header c.Path c.Line :: ls.map Event.context)) →
      (gs.flatMap (fun g => Event.separator :: g.map commentEvent ++
          groupBlock w head_sha g)).filterMap Event.headerOf =
        (gs.map groupKey).filter (fun k => decide (k.2 ≠ 0))
  | [], _ => rfl
  | g :: gs, h => by
    have ih := trace_headerOf w head_sha gs (fun g2 hg2 => h g2 (List.mem_cons_of_mem _ hg2))
    obtain ⟨c, rest, rfl, h0, h1⟩ := h g (List.mem_cons_self _ _)
    have hcom : ∀ l : List Comment, (l.map commentEvent).filterMap Event.headerOf = [] := by
      intro l
      rw [List.filterMap_map, List.filterMap_eq_nil_iff]
      intro x _
      rfl
    rw [List.flatMap_cons, List.filterMap_append, ih, List.cons_append, List.filterMap_cons,
      List.filterMap_append, hcom]
    simp only [Event.headerOf, List.nil_append, groupKey, List.map_cons]
    by_cases hl : c.Line = 0
    · rw [h0 hl]
      simp [hl]
    · obtain ⟨ls, hls⟩ := h1 hl
      rw [hls]
      have hctx : (ls.map Event.context).filterMap Event.headerOf = [] := by
        rw [List.filterMap_map, List.filterMap_eq_nil_iff]
        intro x _
        rfl
      simp [Event.headerOf, hctx, hl]

/-- C11 (counterexample): with a first group whose file `git show` does not find,
`fetch` panics after the first comment is printed; this is the only run, and the
second comment is never printed. -/
theorem C11_abort_leaves_comment_unprinted :
    showComments world1 pull1 c11Aborting
      ([Event.separator, Event.comment (bytes "ann") (bytes "first")], Status.panic) ∧
    (∀ r, showComments world1 pull1 c11Aborting r →
      r = ([Event.separator, Event.comment (bytes "ann") (bytes "first")], Status.panic)) ∧
    Event.comment (bytes "bob") (bytes "second") ∉
      [Event.separator, Event.comment (bytes "ann") (bytes "first")] := by
  refine ⟨⟨c11Aborting, by decide, by decide⟩, ?_, by decide⟩
  rintro r ⟨sorted, ⟨hp, hsrt⟩, rfl⟩
  have hlen := hp.length_eq
  have hnd : sorted.Nodup := hp.nodup_iff.mpr (by decide)
  match sorted, hp, hsrt, hlen, hnd with
  | [x, y], hp, hsrt, _, hnd =>
    have hx : x ∈ c11Aborting := hp.subset (List.mem_cons_self _ _)
    have hy : y ∈ c11Aborting := hp.subset (List.mem_cons_of_mem _ (List.mem_cons_self _ _))
    simp only [c11Aborting, List.mem_cons, List.mem_singleton, List.not_mem_nil, or_false]
      at hx hy
    rcases hx with rfl | rfl <;> rcases hy with rfl | rfl
    · simp at hnd
    · decide
    · exact absurd hsrt (by decide)
    · simp at hnd

/-- C11 (amended): when a run of showComments completes, the comments in sorted
order split into contiguous groups, each of one `(Path, Line)` pair, no two
groups of the same pair; the output is, group after group, the separator, the
author and body of each comment of the group in order, then nothing for a group
with `Line == 0` and otherwise one header `path:line` with the one context block
computed from the before file at the CommitId of the group's first comment.
So every comment is printed exactly once in sorted order and there is exactly
one header per distinct `(Path, Line)` with `Line != 0`. -/
theorem C11_grouping_of_completed_run (w : Collaborators) (pull : PullRequest)
    (comments : CommentList) (trace : List Event)
    (h : showComments w pull comments (trace, Status.done)) :
    ∃ (sorted : CommentList) (gs : List (List Comment)),
      SortSort comments sorted ∧
      sorted = gs.flatten ∧
      (∀ g ∈ gs, ∃ c rest, g = c :: rest ∧ ∀ x ∈ rest, x.Path = c.Path ∧ x.Line = c.Line) ∧
      (gs.map groupKey).Nodup ∧
      trace = gs.flatMap
        (fun g => Event.separator :: g.map commentEvent ++ groupBlock w pull.Head.SHA g) ∧
      (∀ g ∈ gs, ∀ c rest, g = c :: rest →
        (c.Line = 0 → groupBlock w pull.Head.SHA g = []) ∧
        (c.Line ≠ 0 → ∃ before after ls,
          w.gitShow c.Path c.CommitId = some before ∧
          w.gitShow c.Path pull.Head.SHA = some after ∧
          contextBlock before (w.colordiff before after) c.Line = Res.ok ls ∧
          groupBlock w pull.Head.SHA g =
            Event.header c.Path c.Line :: ls.map Event.context)) ∧
      trace.filterMap Event.commentOf = sorted.map (fun c => (c.User.Login, c.Body)) ∧
      trace.filterMap Event.headerOf =
        (gs.map groupKey).filter (fun k => decide (k.2 ≠ 0)) := by
  obtain ⟨sorted, hsort, hrun⟩ := h
  have hpw := (isSorted_iff_pairwise sorted).mp hsort.2
  obtain ⟨gs, e1, e2, e3, e4, e5⟩ :=
    showLoop_done w pull.Head.SHA sorted.length sorted trace hpw hrun.symm
  refine ⟨sorted, gs, hsort, e1, e2, e3, e4, e5, ?_, ?_⟩
  · rw [e4, trace_commentOf, ← e1]
  · rw [e4]
    apply trace_headerOf
    intro g hg
    obtain ⟨c, rest, rfl, _⟩ := e2 g hg
    obtain ⟨h0, h1⟩ := e5 _ hg c rest rfl
    refine ⟨c, rest, rfl, h0, fun hne => ?_⟩
    obtain ⟨_, _, ls, _, _, _, hb⟩ := h1 hne
    exact ⟨ls, hb⟩

/-- C11 (amended) at `c11Comments`: a completed run with one group without an
anchor and one group of two comments on line 1 of "a.go". -/
theorem C11_grouping_of_completed_run_witness :
    showComments world1 pull1 c11Comments
      ([Event.separator, Event.comment (bytes "cy") (bytes "general"),
        Event.separator, Event.comment (bytes "ann") (bytes "first"),
        Event.comment (bytes "bob") (bytes "second"),
        Event.header (bytes "a.go") 1,
        Event.context (bytes "xxx   xxx"), Event.context (bytes "    > new"),
        Event.context (bytes "yyy   yyy")], Status.done) ∧
    ∃ (sorted : CommentList) (gs : List (List Comment)),
      SortSort c11Comments sorted ∧ sorted = gs.flatten ∧ (gs.map groupKey).Nodup :=
  have hrun : showComments world1 pull1 c11Comments
      ([Event.separator, Event.comment (bytes "cy") (bytes "general"),
        Event.separator, Event.comment (bytes "ann") (bytes "first"),
        Event.comment (bytes "bob") (bytes "second"),
        Event.header (bytes "a.go") 1,
        Event.context (bytes "xxx   xxx"), Event.context (bytes "    > new"),
        Event.context (bytes "yyy   yyy")], Status.done) :=
    ⟨c11Comments, by decide, by decide⟩
  ⟨hrun,
    match C11_grouping_of_completed_run world1 pull1 c11Comments _ hrun with
    | ⟨sorted, gs, h1, h2, _, h4, _⟩ => ⟨sorted, gs, h1, h2, h4⟩⟩

/-! ## C12: the anchor lookup -/

/-- C12: for the before-text "xxx\nyyy", two lines without a newline at the end,
the mapping has the two entries `m[0]`, `m[1]`; the anchor of the last line,
`line = 2`, is not a valid index and `m[line]` panics. With the newline at the
end the split has a third, empty piece and `m[2]` exists. -/
theorem C12_last_line_anchor_out_of_range :
    splitLines beforeNoNewline = [bytes "xxx", bytes "yyy"] ∧
    lineMap beforeNoNewline diffSame = Res.ok [0, 1] ∧
    indexInt [0, 1] 2 = none ∧
    contextBlock beforeNoNewline diffSame 2 = Res.panic ∧
    lineMap beforeNewline diffSame = Res.ok [0, 1, 2] ∧
    indexInt [0, 1, 2] 2 = some 2 := by decide

/-! ## C2: sort.Sort on at most twelve comments is insertion sort -/

theorem getElem?_append_at (front : List Comment) (p : Comment) (back : List Comment) :
    (front ++ p :: back)[front.length]? = some p := by
  rw [List.getElem?_append_right (le_refl _), Nat.sub_self]
  simp

theorem getElem?_append_next (front : List Comment) (p x : Comment) (back : List Comment) :
    (front ++ p :: x :: back)[front.length + 1]? = some x := by
  rw [List.getElem?_append_right (Nat.le_succ _)]
  have e : front.length + 1 - front.length = 1 := by omega
  rw [e]
  simp

theorem less_at_append (front : List Comment) (p x : Comment) (back : List Comment) :
    dataLess (front ++ p :: x :: back) (front.length + 1) front.length =
      Res.ok (lessBody x p) := by
  unfold dataLess CommentList.Less
  rw [getElem?_append_at, getElem?_append_next]
  rfl

theorem swap_at_append (front : List Comment) (p x : Comment) (back : List Comment) :
    dataSwap (front ++ p :: x :: back) (front.length + 1) front.length =
      Res.ok (front ++ x :: p :: back) := by
  unfold dataSwap CommentList.Swap
  rw [getElem?_append_at, getElem?_append_next]
  simp [Res.ofOption, List.set_append]

theorem bind_ok {α β : Type} (a : α) (f : α → Res β) : (Res.ok a >>= f) = f a := rfl

theorem pure_eq_ok {α : Type} (a : α) : (pure a : Res α) = Res.ok a := rfl

theorem insertionInner_bubble :
    ∀ (prefixRev : List Comment) (x : Comment) (back : List Comment),
      insertionInner 0 prefixRev.length (prefixRev.reverse ++ x :: back) =
        Res.ok ((bubble x prefixRev).reverse ++ back)
  | [], x, back => by simp [insertionInner, bubble, pure_eq_ok]
  | p :: ps, x, back => by
    have e : (p :: ps).reverse ++ x :: back = ps.reverse ++ p :: x :: back := by simp
    have hl : ps.reverse.length = ps.length := List.length_reverse ps
    rw [e, List.length_cons]
    unfold insertionInner
    rw [if_pos (Nat.succ_pos _)]
    have h1 := less_at_append ps.reverse p x back
    have h2 := swap_at_append ps.reverse p x back
    rw [hl] at h1 h2
    rw [h1, bind_ok]
    cases hlt : lessBody x p with
    | true =>
      simp only [if_true]
      rw [h2, bind_ok, insertionInner_bubble ps x (p :: back)]
      simp [bubble, hlt]
    | false =>
      simp [bubble, hlt, pure_eq_ok]

theorem length_bubble (x : Comment) :
    ∀ prefixRev : List Comment, (bubble x prefixRev).length = prefixRev.length + 1
  | [] => rfl
  | p :: ps => by
    unfold bubble
    split
    · simp [length_bubble x ps]
    · simp

theorem insertionOuter_bubbleAll :
    ∀ (rest prefixRev : List Comment) (fuel : Nat), rest.length ≤ fuel →
      insertionOuter 0 (prefixRev.length + rest.length) fuel prefixRev.length
          (prefixRev.reverse ++ rest) =
        Res.ok (bubbleAll prefixRev rest).reverse
  | [], prefixRev, fuel, _ => by
    cases fuel <;> simp [insertionOuter, bubbleAll, pure_eq_ok]
  | x :: rest, prefixRev, 0, h => by simp at h
  | x :: rest, prefixRev, fuel + 1, h => by
    unfold insertionOuter
    have hlt : prefixRev.length < prefixRev.length + (x :: rest).length := by simp
    rw [if_pos hlt, insertionInner_bubble prefixRev x rest, bind_ok]
    have ih := insertionOuter_bubbleAll rest (bubble x prefixRev) fuel
      (by simpa using h)
    rw [length_bubble] at ih
    have e : prefixRev.length + (x :: rest).length = prefixRev.length + 1 + rest.length := by
      simp only [List.length_cons]; omega
    rw [e, ih]
    rfl

theorem insertionSort_whole (c : Comment) (rest : List Comment) :
    insertionSort (c :: rest) 0 (c :: rest).length =
      Res.ok (bubbleAll [] (c :: rest)).reverse := by
  unfold insertionSort
  have h := insertionOuter_bubbleAll rest [c] (rest.length + 1) (by omega)
  simp only [List.length_cons, List.length_nil, List.reverse_cons, List.reverse_nil,
    List.nil_append, List.singleton_append, Nat.zero_add] at h
  have e : 1 + rest.length = rest.length + 1 := by omega
  rw [e] at h
  simp only [List.length_cons, Nat.sub_zero, Nat.zero_add]
  rw [h]
  rfl

theorem stdSort_short (l : CommentList) (h : l.length ≤ 12) :
    stdSort l = Res.ok (bubbleAll [] l).reverse := by
  unfold stdSort CommentList.Len
  match l, h with
  | [], _ => rfl
  | [c], _ => rfl
  | c :: d :: rest, h =>
    have hn : ¬ (c :: d :: rest).length ≤ 1 := by simp
    rw [if_neg hn]
    unfold pdqsortLoop
    have hb : (c :: d :: rest).length - 0 ≤ 12 := by simpa using h
    rw [if_pos hb]
    exact insertionSort_whole c (d :: rest)

theorem bubble_perm (x : Comment) :
    ∀ prefixRev : List Comment, (bubble x prefixRev).Perm (x :: prefixRev)
  | [] => List.Perm.refl _
  | p :: ps => by
    unfold bubble
    split
    · exact ((bubble_perm x ps).cons p).trans (List.Perm.swap x p ps)
    · exact List.Perm.refl _

theorem bubbleAll_perm :
    ∀ (rest prefixRev : List Comment),
      (bubbleAll prefixRev rest).reverse.Perm (prefixRev.reverse ++ rest)
  | [], prefixRev => by simp [bubbleAll]
  | x :: rest, prefixRev => by
    have ih := bubbleAll_perm rest (bubble x prefixRev)
    have e : bubbleAll prefixRev (x :: rest) = bubbleAll (bubble x prefixRev) rest := rfl
    rw [e]
    refine ih.trans ?_
    have h1 : (bubble x prefixRev).reverse.Perm (prefixRev.reverse ++ [x]) :=
      (List.reverse_perm _).trans ((bubble_perm x prefixRev).trans
        ((List.perm_append_singleton x prefixRev).symm.trans
          ((List.reverse_perm prefixRev).symm.append_right [x])))
    have h2 := h1.append_right rest
    simpa using h2

theorem bubble_sorted (x : Comment) :
    ∀ prefixRev : List Comment,
      prefixRev.Pairwise (fun a b => lessBody a b = false) →
        (bubble x prefixRev).Pairwise (fun a b => lessBody a b = false)
  | [], _ => by simp [bubble]
  | p :: ps, h => by
    obtain ⟨hp, hps⟩ := List.pairwise_cons.mp h
    unfold bubble
    cases hlt : lessBody x p with
    | true =>
      simp only [if_true]
      rw [List.pairwise_cons]
      refine ⟨?_, bubble_sorted x ps hps⟩
      intro y hy
      rcases List.mem_cons.mp ((bubble_perm x ps).subset hy) with rfl | hy
      · exact lessBody_asymm _ _ hlt
      · exact hp y hy
    | false =>
      simp only [Bool.false_eq_true, if_false]
      rw [List.pairwise_cons]
      refine ⟨?_, h⟩
      intro y hy
      rcases List.mem_cons.mp hy with rfl | hy
      · exact hlt
      · exact lessBody_negtrans y p x (hp y hy) hlt

theorem bubbleAll_sorted :
    ∀ (rest prefixRev : List Comment),
      prefixRev.Pairwise (fun a b => lessBody a b = false) →
        (bubbleAll prefixRev rest).Pairwise (fun a b => lessBody a b = false)
  | [], _, h => h
  | x :: rest, prefixRev, h => bubbleAll_sorted rest (bubble x prefixRev) (bubble_sorted x _ h)

theorem bubble_filter (x : Comment) (k : Str × Int × Str) :
    ∀ prefixRev : List Comment,
      (bubble x prefixRev).reverse.filter (fun c => c.key = k) =
        (prefixRev.reverse ++ [x]).filter (fun c => c.key = k)
  | [] => by simp [bubble]
  | p :: ps => by
    unfold bubble
    cases hlt : lessBody x p with
    | true =>
      have hne : x.key ≠ p.key := by
        intro e
        rw [lessBody_congr_right p x x e.symm, lessBody_irrefl] at hlt
        cases hlt
      simp only [if_true, List.reverse_cons, List.filter_append, bubble_filter x k ps,
        List.append_assoc]
      congr 1
      by_cases hx : x.key = k
      · have hp : ¬ p.key = k := fun e => hne (hx.trans e.symm)
        simp [hx, hp]
      · simp [hx]
    | false => simp

theorem bubbleAll_filter (k : Str × Int × Str) :
    ∀ (rest prefixRev : List Comment),
      (bubbleAll prefixRev rest).reverse.filter (fun c => c.key = k) =
        (prefixRev.reverse ++ rest).filter (fun c => c.key = k)
  | [], prefixRev => by simp [bubbleAll]
  | x :: rest, prefixRev => by
    have ih := bubbleAll_filter k rest (bubble x prefixRev)
    have e : bubbleAll prefixRev (x :: rest) = bubbleAll (bubble x prefixRev) rest := rfl
    rw [e, ih, List.filter_append, bubble_filter, ← List.filter_append]
    simp

/-- C2 (counterexample): on thirteen comments of one line, the first twelve
created at the same time and the last one earlier, `sort.Sort` returns the
order b12, b06, b02, b03, b04, b05, b00, b07, ..., b11, b01: the twelve
comments with equal keys are no longer in their input order. -/
theorem C2_sort_thirteen_not_stable :
    stdSort c2Thirteen = Res.ok c2ThirteenSorted ∧ ¬ Stable c2Thirteen c2ThirteenSorted := by
  refine ⟨by decide, ?_⟩
  intro h
  have := h (bytes "a.go", 10, bytes "2020-01-02")
  revert this
  decide

/-- C2 (amended): on at most twelve comments `sort.Sort` runs insertion sort
alone: it returns, and the result is a permutation of the input, in order by
`Less`, in which, for every key, the comments with that key are in their input
order. -/
theorem C2_sort_stable_up_to_twelve (l : CommentList) (h : l.length ≤ 12) :
    ∃ out, stdSort l = Res.ok out ∧ out.Perm l ∧ IsSorted out ∧ Stable l out := by
  refine ⟨(bubbleAll [] l).reverse, stdSort_short l h, ?_, ?_, ?_⟩
  · simpa using bubbleAll_perm l []
  · rw [isSorted_iff_pairwise, List.pairwise_reverse]
    exact bubbleAll_sorted l [] List.Pairwise.nil
  · intro k
    simpa using bubbleAll_filter k l []

/-- C2 (amended) at `c2Unsorted`, three comments, and at `c2Input`, two comments
with equal keys, which stay as they are. -/
theorem C2_sort_stable_up_to_twelve_witness :
    c2Unsorted.length ≤ 12 ∧
    stdSort c2Unsorted = Res.ok c1Comments ∧
    stdSort c2Input = Res.ok c2Input ∧
    ∃ out, stdSort c2Input = Res.ok out ∧ out.Perm c2Input ∧ IsSorted out ∧
      Stable c2Input out :=
  ⟨by decide, by decide, by decide, C2_sort_stable_up_to_twelve c2Input (by decide)⟩

end GithubGo
